import Mathlib

/-!
Benchmark harness `scripts/run_bench.cpp`.

A shallow embedding of the orchestration harness: command templating,
the process runner, the self-reported timing extractor, aggregation, the
comparative analysis and the two result logs.

Conventions of the embedding.
* `std::string` is a list of characters (`String` at the interfaces).
* `int` is `Int`; the one `int` multiplication of the program (`p * q`) wraps
  to 32 bits, as the target machines do.
* In the model of `main`, `double` is an exact rational (`ℚ`): rounding,
  infinities and NaN are not represented there.  The one place where the
  finite range of `double` changes control flow, `std::stod`, is modelled
  with its range error.
* The two numeric functions `average` and `theoretical_time_ms` are embedded a
  second time over IEEE-754 binary64 (`Ieee.Double`: round to nearest, ties
  to even, with infinities and NaN), operation for operation as the
  program computes them; the properties of the two functions are stated there.
* The host (child processes, temporary files, clock, output streams) is an
  explicit parameter; the file system is explicit state.  In the model of
  `main` a file is its path text, every file can be read and every write
  reaches the file; `Fs.main` is `main` with the three made explicit (`Access`),
  and the properties of the tabular log are stated there.
-/

deriving instance DecidableEq for Except

namespace RunBench

/-! ## Configuration and records -/

/-- The struct `Args` (run_bench.cpp 18-33). -/
structure Args where
  n : Int := 0
  block : Int := 256
  p : Int := 1
  q : Int := 1
  iters : Int := 3
  runs : Int := 1
  peak_tflops : ℚ := 0
  hip_cmd : String := "./build/hip_cholesky --n {n} --iters {iters}"
  roc_cmd : String := "./build/roc_cholesky --n {n} --iters {iters}"
  scalapack_cmd : String :=
    "mpirun -np {np} ./build/scalapack_cholesky --n {n} --nb {block} --p {p} --q {q} --iters {iters}"
  out_jsonl : String := "output/bench_results.jsonl"
  out_csv : String := "output/bench_results.csv"

/-! ## Command templater (run_bench.cpp 79-98) -/

/-- The text `"{" + key + "}"` built at the top of `replace_all`. -/
def token (key : List Char) : List Char := '{' :: (key ++ ['}'])

/-- The search of `std::string::find` inside the suffix `s` of the subject that
starts at index `i`: the least index at which `tok` begins, if any. -/
def find_from (tok : List Char) : List Char → Nat → Option Nat
  | [], i => if tok = [] then some i else none
  | c :: s, i => if tok.isPrefixOf (c :: s) then some i else find_from tok s (i + 1)

/-- The call `value.find(tok, pos)`; `none` stands for `npos`. -/
def find (value tok : List Char) (pos : Nat) : Option Nat :=
  if pos ≤ value.length then find_from tok (value.drop pos) pos else none

/-- The `while` loop of `replace_all`, with the loop state `(value, pos)`.
Every iteration moves `pos` past one occurrence, so the subject's length
bounds the number of iterations; `fuel` counts them down. -/
def replace_loop (tok repl : List Char) : Nat → List Char → Nat → List Char
  | 0, value, _ => value
  | fuel + 1, value, pos =>
    match find value tok pos with
    | none => value
    | some i =>
      replace_loop tok repl fuel
        (value.take i ++ repl ++ value.drop (i + tok.length)) (i + repl.length)

/-- The function `replace_all(value, key, repl)`. -/
def replace_all (value key repl : List Char) : List Char :=
  replace_loop (token key) repl (value.length + 1) value 0

/-- The product of two `int`s as the machine computes it: the low 32 bits of
the exact product, read as a signed number. -/
def int_mul (a b : Int) : Int := (a * b + 2 ^ 31) % 2 ^ 32 - 2 ^ 31

/-- The call `std::to_string(int)`: decimal digits, with a leading `-` for a
negative number. -/
def to_string (i : Int) : List Char := (toString i).data

/-- The function `format_cmd` on character lists. -/
def format_chars (templ : List Char) (args : Args) : List Char :=
  let out := templ
  let out := replace_all out "n".data (to_string args.n)
  let out := replace_all out "block".data (to_string args.block)
  let out := replace_all out "p".data (to_string args.p)
  let out := replace_all out "q".data (to_string args.q)
  let out := replace_all out "iters".data (to_string args.iters)
  let out := replace_all out "np".data (to_string (int_mul args.p args.q))
  out

/-- The function `format_cmd(templ, args)`. -/
def format_cmd (templ : String) (args : Args) : String :=
  String.mk (format_chars templ.data args)

/-! ### The one-pass reading of the templater -/

/-- The first entry of a substitution table whose placeholder begins `s`. -/
def lookup (table : List (List Char × List Char)) (s : List Char) :
    Option (List Char × List Char) :=
  table.find? (fun tv => tv.1.isPrefixOf s)

/-- One left-to-right pass: where a placeholder of the table begins, its text is
emitted and the placeholder skipped; any other character is copied. -/
def scan (table : List (List Char × List Char)) : Nat → List Char → List Char
  | 0, s => s
  | fuel + 1, s =>
    match lookup table s with
    | some tv => tv.2 ++ scan table fuel (s.drop tv.1.length)
    | none =>
      match s with
      | [] => []
      | c :: r => c :: scan table fuel r

/-- The pass over a whole text (a step consumes at least one character). -/
def single_pass (table : List (List Char × List Char)) (s : List Char) : List Char :=
  scan table s.length s

/-- The recognized placeholders and the text each stands for:
`n`, `block`, `p`, `q`, `iters` render the field, `np` renders `p * q`. -/
def substitutions (a : Args) : List (List Char × List Char) :=
  [ (token "n".data, to_string a.n),
    (token "block".data, to_string a.block),
    (token "p".data, to_string a.p),
    (token "q".data, to_string a.q),
    (token "iters".data, to_string a.iters),
    (token "np".data, to_string (int_mul a.p a.q)) ]

/-- The template rendered by one pass over it. -/
def render_once (templ : String) (a : Args) : String :=
  String.mk (single_pass (substitutions a) templ.data)

/-- The six recognized placeholders. -/
def recognized_tokens : List (List Char) :=
  [token "n".data, token "block".data, token "p".data, token "q".data,
   token "iters".data, token "np".data]

/-- Whether a recognized placeholder occurs anywhere in the text. -/
def has_recognized_token (s : String) : Bool :=
  s.data.tails.any (fun t => recognized_tokens.any (fun tok => tok.isPrefixOf t))

/-- A character of a rendered `int`: a decimal digit or the sign. -/
def value_char (c : Char) : Bool := c.isDigit || c == '-'

/-- A character that is neither an opening brace nor part of a rendered `int`. -/
def plain_char (c : Char) : Bool := c != '{' && !value_char c

/-- Every placeholder of the table is an opening brace followed by plain characters. -/
def TokOk (T : List (List Char × List Char)) : Prop :=
  ∀ tv ∈ T, ∃ body, tv.1 = '{' :: body ∧ ∀ c ∈ body, plain_char c = true

/-- Every substituted text of the table is a non-empty run of digits and signs. -/
def ValOk (T : List (List Char × List Char)) : Prop :=
  ∀ tv ∈ T, tv.2 ≠ [] ∧ ∀ c ∈ tv.2, value_char c = true

/-! ## Records (run_bench.cpp 35-57) -/

/-- The struct `CommandResult`. -/
structure CommandResult where
  returncode : Int := 0
  time_ms : ℚ := 0
  memory_kb : Int := -1
  stdout_text : String := ""
  stderr_text : String := ""
deriving DecidableEq

/-- The struct `Entry`. -/
structure Entry where
  timestamp : String := ""
  method : String := ""
  n : Int := 0
  block : Int := 0
  p : Int := 0
  q : Int := 0
  iters : Int := 0
  runs : Int := 0
  time_ms : ℚ := 0
  memory_usage_kb : ℚ := -1
  theoretical_time_ms : ℚ := -1
  performance_difference_pct : ℚ := 0
  perf_diff_valid : Bool := false
deriving DecidableEq

/-! ## Self-reported timing extractor (run_bench.cpp 100-107)

The regular expression is `"time_ms"\s*:\s*([0-9]+(\.[0-9]+)?)`.  Its greedy
repetitions are followed by characters outside the repeated class, so the
backtracking matcher of `std::regex` takes the longest run at each of them. -/

/-- The class `\s` in the classic locale: space, tab, line feed, vertical tab,
form feed, carriage return. -/
def is_space (c : Char) : Bool :=
  c == ' ' || c == '\t' || c == '\n' || c == '\r' || c.toNat == 11 || c.toNat == 12

/-- The text left after the literal `lit`, when `s` begins with it. -/
def after_literal : List Char → List Char → Option (List Char)
  | [], s => some s
  | _ :: _, [] => none
  | a :: lit, c :: s => if a = c then after_literal lit s else none

/-- A match of the regular expression that begins at the first character of `s`:
the text captured by group 1, if the expression matches there. -/
def match_here (s : List Char) : Option (List Char) :=
  match after_literal "\"time_ms\"".data s with
  | none => none
  | some s1 =>
    match s1.dropWhile is_space with
    | ':' :: s2 =>
      let s3 := s2.dropWhile is_space
      let whole := s3.takeWhile Char.isDigit
      if whole = [] then none
      else
        match s3.dropWhile Char.isDigit with
        | '.' :: s4 =>
          let frac := s4.takeWhile Char.isDigit
          if frac = [] then some whole else some (whole ++ '.' :: frac)
        | _ => some whole
    | _ => none

/-- The call `std::regex_search(text, m, re)`: the match at the leftmost position
that has one; the result is `m[1].str()`. -/
def regex_search : List Char → Option (List Char)
  | [] => match_here []
  | c :: s =>
    match match_here (c :: s) with
    | some m => some m
    | none => regex_search s

/-- The number a run of decimal digits writes. -/
def digits_value (ds : List Char) : Nat :=
  ds.foldl (fun acc c => 10 * acc + (c.toNat - '0'.toNat)) 0

/-- The exact value of a text `digits` or `digits.digits`. -/
def decimal_value (text : List Char) : ℚ :=
  let whole := text.takeWhile Char.isDigit
  let frac := (text.dropWhile Char.isDigit).drop 1
  (digits_value whole : ℚ) + (digits_value frac : ℚ) / 10 ^ frac.length

/-- The least magnitude that rounds beyond the largest finite `double`. -/
def DBL_OVERFLOW : ℚ := 2 ^ 1024 - 2 ^ 970

/-- The largest finite `double`. -/
def DBL_MAX : ℚ := 2 ^ 1024 - 2 ^ 971

/-- The least positive normal `double`. -/
def DBL_MIN : ℚ := 1 / 2 ^ 1022

/-- The least magnitude that rounds to `DBL_MIN` at the precision of `double`:
half a unit in the last place (`2^-1076`) below it. -/
def DBL_TINY : ℚ := DBL_MIN - 1 / 2 ^ 1076

/-- Whether `strtod` reports `ERANGE` for the exact value `v ≥ 0`: the value
overflows, or it is tiny (it rounds, at the precision of `double`, to less
than `DBL_MIN`: tininess is detected after rounding, as on x86-64) and no
subnormal `double` (a multiple of `2^-1074`) equals it. -/
def out_of_double_range (v : ℚ) : Bool :=
  decide (DBL_OVERFLOW ≤ v) || (decide (0 < v) && decide (v < DBL_TINY) && (v * 2 ^ 1074).den != 1)

/-- The call `std::stod(text)` on a text the regular expression captured: the
value, or the `std::out_of_range` exception the library throws on `ERANGE`.
The value returned is the exact one (rounding to `double` is not represented). -/
def stod (text : List Char) : Except String ℚ :=
  if out_of_double_range (decimal_value text) then .error "stod" else .ok (decimal_value text)

/-- The function `parse_time_ms_from_json(text)`. -/
def parse_time_ms_from_json (text : String) : Except String ℚ :=
  match regex_search text.data with
  | some m => stod m
  | none => .ok (-1)

/-! ## Process runner (run_bench.cpp 109-157) -/

/-- What `wait4` reports for the child once it has ended, with the text the child
left in the two capture files and the time the steady clock measured. -/
structure ChildRun where
  /-- the exit status when `WIFEXITED(status)`, `none` for a child ended by a signal -/
  exited : Option Nat := some 0
  /-- the field `usage.ru_maxrss` -/
  maxrss : Int := 0
  /-- the milliseconds between the two readings of the steady clock -/
  elapsed_ms : ℚ := 0
  stdout_text : String := ""
  stderr_text : String := ""

/-- What the host does during one call of `run_command`.  The parent never tests
the result of `fork`; a child that could not be started shows as `wait = none`
(`wait4` fails with no child) and one that could not `exec` as exit status 127. -/
structure Spawn where
  /-- the first `mkstemp`: the name of the file it created, `none` when it failed -/
  stdout_tmp : Option String := none
  /-- the second `mkstemp` -/
  stderr_tmp : Option String := none
  /-- the call `wait4`: `none` when it returned a negative value -/
  wait : Option ChildRun := none

/-- How a call of `run_command` ends. -/
inductive Outcome where
  | returned (result : CommandResult)
  | raised (what : String)
deriving DecidableEq

/-- The capture files in existence after a `mkstemp` call. -/
def mkstemp (made : Option String) (temps : List String) : List String :=
  match made with
  | some name => temps ++ [name]
  | none => temps

/-- The capture files in existence after `unlink(name)`. -/
def unlink (name : String) (temps : List String) : List String := temps.erase name

/-- The function `run_command(command)`.  `host` gives the host's conduct for the
command; `temps` lists the capture files that exist, before and after. -/
def run_command (host : String → Spawn) (command : String) (temps : List String) :
    Outcome × List String :=
  let h := host command
  let temps := mkstemp h.stdout_tmp temps
  let temps := mkstemp h.stderr_tmp temps
  match h.stdout_tmp, h.stderr_tmp with
  | some stdout_template, some stderr_template =>
    match h.wait with
    | none => (.raised "wait4 failed.", temps)
    | some child =>
      let temps := unlink stdout_template temps
      let temps := unlink stderr_template temps
      let returncode : Int :=
        match child.exited with
        | some code => (code : Int)
        | none => -1
      match parse_time_ms_from_json child.stdout_text with
      | .error what => (.raised what, temps)
      | .ok parsed =>
        (.returned
          { returncode := returncode
            time_ms := if parsed ≥ 0 then parsed else child.elapsed_ms
            memory_kb := child.maxrss
            stdout_text := child.stdout_text
            stderr_text := child.stderr_text }, temps)
  | _, _ => (.raised "Failed to create temp files.", temps)

/-! ## Aggregation and estimate (run_bench.cpp 159-176) -/

/-- The function `average(values)` in exact arithmetic, as the model of `main` uses
it (`Ieee.average` is the function in binary64). -/
def average (values : List ℚ) : ℚ :=
  if values.isEmpty then -1
  else values.foldl (fun sum v => sum + v) 0 / (values.length : ℚ)

/-- The function `theoretical_time_ms(n, peak_tflops)` in exact arithmetic, as the
model of `main` uses it (`Ieee.theoretical_time_ms` is the function in binary64). -/
def theoretical_time_ms (n : Int) (peak_tflops : ℚ) : ℚ :=
  if peak_tflops ≤ 0 then -1
  else
    let flops := ((n : ℚ) * n * n) / 3
    (flops / (peak_tflops * 1000000000000)) * 1000

/-! ### The two functions over IEEE-754 binary64

The type `double` of the target machines: binary64, every operation rounded to
nearest with ties to even, no excess precision and no contraction.  A finite
value is the rational it denotes; the sign of zero is not represented (the two
zeros compare equal), nor is the payload of a NaN. -/

namespace Ieee

/-- A value of type `double`. -/
inductive Double where
  | finite (value : ℚ)
  | inf (negative : Bool)
  | nan
deriving DecidableEq

/-- The power `2^e` for an integer exponent. -/
def pow2 (e : Int) : ℚ :=
  if 0 ≤ e then (2 : ℚ) ^ e.toNat else 1 / (2 : ℚ) ^ (-e).toNat

/-- The number of halvings that bring `n` below 2, with `fuel` halvings allowed. -/
def bit_length : Nat → Nat → Nat
  | 0, _ => 0
  | fuel + 1, n => if 2 ≤ n then bit_length fuel (n / 2) + 1 else 0

/-- The integer part of the binary logarithm of `n ≥ 1`. -/
def log2 (n : Nat) : Nat := bit_length n n

/-- The binary exponent of `q > 0`: the `e` with `2^e ≤ q < 2^(e+1)`. -/
def exponent (q : ℚ) : Int :=
  let e0 : Int := (log2 q.num.natAbs : Int) - (log2 q.den : Int)
  if pow2 e0 ≤ q then e0 else e0 - 1

/-- The integer nearest to `m ≥ 0`, the even one of the two when `m` is half-way. -/
def nearest_even (m : ℚ) : Nat :=
  let f := m.num.toNat / m.den
  let r2 := 2 * (m.num.toNat % m.den)
  if r2 < m.den then f
  else if m.den < r2 then f + 1
  else if f % 2 = 0 then f else f + 1

/-- The magnitude `q > 0` rounded to 53 significant bits, on the grid of the
subnormal numbers (multiples of `2^-1074`) below the normal range; `none` when
the rounded magnitude is beyond the largest finite `double`. -/
def round_magnitude (q : ℚ) : Option ℚ :=
  let p := max (exponent q - 52) (-1074)
  let v := (nearest_even (q / pow2 p) : ℚ) * pow2 p
  if (2 : ℚ) ^ 1024 ≤ v then none else some v

/-- The `double` an exact result is rounded to. -/
def to_double (q : ℚ) : Double :=
  if q = 0 then .finite 0
  else if 0 < q then
    match round_magnitude q with
    | some v => .finite v
    | none => .inf false
  else
    match round_magnitude (-q) with
    | some v => .finite (-v)
    | none => .inf true

/-- The rational is a value of type `double`. -/
@[reducible] def representable (q : ℚ) : Prop := to_double q = .finite q

/-- The factor by which one rounding in the normal range can change a positive
number, either way: `1 / (1 - 2^-53)`. -/
def slack : ℚ := 2 ^ 53 / (2 ^ 53 - 1)

/-- The positive numbers `x` and `y` are within `k` roundings of each other. -/
def near (k : Nat) (x y : ℚ) : Prop := 0 < y ∧ y ≤ x * slack ^ k ∧ x ≤ y * slack ^ k

/-- The operator `+` on `double`. -/
def add : Double → Double → Double
  | .nan, _ => .nan
  | _, .nan => .nan
  | .inf s, .inf t => if s = t then .inf s else .nan
  | .inf s, .finite _ => .inf s
  | .finite _, .inf t => .inf t
  | .finite a, .finite b => to_double (a + b)

/-- The operator `*` on `double`. -/
def mul : Double → Double → Double
  | .nan, _ => .nan
  | _, .nan => .nan
  | .inf s, .inf t => .inf (s != t)
  | .inf s, .finite b => if b = 0 then .nan else .inf (s != decide (b < 0))
  | .finite a, .inf t => if a = 0 then .nan else .inf (decide (a < 0) != t)
  | .finite a, .finite b => to_double (a * b)

/-- The operator `/` on `double`.  A zero divisor is taken as `+0.0`; no
division of the program has a zero divisor. -/
def div : Double → Double → Double
  | .nan, _ => .nan
  | _, .nan => .nan
  | .inf _, .inf _ => .nan
  | .inf s, .finite b => .inf (s != decide (b < 0))
  | .finite _, .inf _ => .finite 0
  | .finite a, .finite b =>
    if b = 0 then (if a = 0 then .nan else .inf (decide (a < 0)))
    else to_double (a / b)

/-- The operator `<=` on `double`: false when an operand is NaN. -/
def le : Double → Double → Bool
  | .nan, _ => false
  | _, .nan => false
  | .inf s, .inf t => s || !t
  | .inf s, .finite _ => s
  | .finite _, .inf t => !t
  | .finite a, .finite b => decide (a ≤ b)

/-- The operator `<` on `double`: false when an operand is NaN. -/
def lt : Double → Double → Bool
  | .nan, _ => false
  | _, .nan => false
  | .inf s, .inf t => s && !t
  | .inf s, .finite _ => s
  | .finite _, .inf t => !t
  | .finite a, .finite b => decide (a < b)

/-- The conversion `static_cast<double>(n)` of an `int`. -/
def of_int (n : Int) : Double := to_double (n : ℚ)

/-- The conversion `static_cast<double>(values.size())`. -/
def of_size (n : Nat) : Double := to_double (n : ℚ)

/-- The function `average(values)` (run_bench.cpp 159-168). -/
def average (values : List Double) : Double :=
  if values.isEmpty then .finite (-1)
  else div (values.foldl (fun sum v => add sum v) (.finite 0)) (of_size values.length)

/-- The function `theoretical_time_ms(n, peak_tflops)` (run_bench.cpp 170-176). -/
def theoretical_time_ms (n : Int) (peak_tflops : Double) : Double :=
  if le peak_tflops (.finite 0) then .finite (-1)
  else
    let flops := div (mul (mul (of_int n) (of_int n)) (of_int n)) (.finite 3)
    mul (div flops (mul peak_tflops (.finite 1000000000000))) (.finite 1000)

end Ieee

/-- The check that ends `parse_args` (run_bench.cpp 207-210), on the
configuration the option loop produced; the loop itself is not modelled. -/
def parse_args (parsed : Args) : Except String Args :=
  if parsed.n ≤ 0 then .error "--n is required." else .ok parsed

/-! ## The host and the files -/

/-- The platform of one invocation of the harness. -/
structure Host where
  /-- the host's conduct during call number `k` (from 0) of `run_command` -/
  spawn : Nat → String → Spawn
  /-- the text `now_iso_utc()` returns at its call number `k` (from 0) -/
  now_iso_utc : Nat → String
  /-- whether a `std::ofstream` on the path, opened for appending, is `good()` -/
  can_append : String → Bool
  /-- the text `operator<<` writes for a `double` -/
  show_double : ℚ → String

/-- The files the harness can touch: the regular files by path (`none`: no such
file) and the capture files `mkstemp` made that still exist.  A name `mkstemp`
returns is new, so the capture files are kept apart from the paths. -/
structure World where
  logs : String → Option String
  temps : List String

/-- The function `file_exists(path)`, every file that exists being one that can be
read: an input stream on the path is `good()`.  (`Fs.file_exists` is the function
without that assumption.) -/
def file_exists (logs : String → Option String) (path : String) : Bool :=
  (logs path).isSome

/-- Opening a path for appending creates the file when there is none. -/
def open_append (logs : String → Option String) (path : String) : String → Option String :=
  if file_exists logs path then logs else Function.update logs path (some "")

/-- Text appended at the end of the file at a path. -/
def write_append (logs : String → Option String) (path text : String) :
    String → Option String :=
  match logs path with
  | some content => Function.update logs path (some (content ++ text))
  | none => logs

/-! ## The run loop of `main` (run_bench.cpp 223-260) -/

/-- The state the run loop threads: the number of `run_command` calls made, the
capture files in existence, and the commands executed so far with their outcomes. -/
structure Progress where
  calls : Nat
  temps : List String
  trace : List (String × Outcome)

/-- How a part of the run loop ends: it completes, a trial returned a non-zero
exit code (`return 2`), or `run_command` raised an exception. -/
inductive Loop (α : Type) where
  | done (value : α) (st : Progress)
  | failed (st : Progress)
  | raised (what : String) (st : Progress)

/-- The inner loop `for (int i = 0; i < args.runs; ++i)` with `k` iterations left. -/
def run_trials (host : Host) (args : Args) (templ : String) :
    Nat → List ℚ → List ℚ → Progress → Loop (List ℚ × List ℚ)
  | 0, run_times, run_memories, st => .done (run_times, run_memories) st
  | k + 1, run_times, run_memories, st =>
    let command := format_cmd templ args
    let out := run_command (host.spawn st.calls) command st.temps
    let st1 : Progress :=
      { calls := st.calls + 1, temps := out.2, trace := st.trace ++ [(command, out.1)] }
    match out.1 with
    | .raised what => .raised what st1
    | .returned outcome =>
      if outcome.returncode ≠ 0 then .failed st1
      else
        run_trials host args templ k (run_times ++ [outcome.time_ms])
          (if outcome.memory_kb ≥ 0 then run_memories ++ [(outcome.memory_kb : ℚ)]
           else run_memories) st1

/-- The vector `methods` of `main`. -/
def methods (args : Args) : List (String × String) :=
  [("hipsolver", args.hip_cmd), ("rocsolver", args.roc_cmd), ("scalapack", args.scalapack_cmd)]

/-- The outer loop `for (const auto& method : methods)` over the methods left. -/
def run_methods (host : Host) (args : Args) :
    List (String × String) → List Entry → Progress → Loop (List Entry)
  | [], results, st => .done results st
  | method :: rest, results, st =>
    match run_trials host args method.2 args.runs.toNat [] [] st with
    | .done series st1 =>
      let entry : Entry :=
        { timestamp := host.now_iso_utc results.length
          method := method.1
          n := args.n
          block := args.block
          p := args.p
          q := args.q
          iters := args.iters
          runs := args.runs
          time_ms := average series.1
          memory_usage_kb := average series.2
          theoretical_time_ms := theoretical_time_ms args.n args.peak_tflops }
      run_methods host args rest (results ++ [entry]) st1
    | .failed st1 => .failed st1
    | .raised what st1 => .raised what st1

/-! ## Comparative analysis (run_bench.cpp 262-277) -/

/-- The pointer `scalapack` after the first loop: the position of the first entry
named `scalapack`, `none` for the null pointer. -/
def find_scalapack (results : List Entry) : Option Nat :=
  results.findIdx? (fun entry => entry.method == "scalapack")

/-- The body of the second loop for the entry at position `j`, with the baseline
read through the pointer (position `i`) from the vector as it is then. -/
def compare_at (i j : Nat) (results : List Entry) : List Entry :=
  match results[j]?, results[i]? with
  | some entry, some scalapack =>
    if entry.method ≠ "scalapack" ∧ scalapack.time_ms > 0 then
      results.set j
        { entry with
          performance_difference_pct :=
            ((entry.time_ms - scalapack.time_ms) / scalapack.time_ms) * 100
          perf_diff_valid := true }
    else results
  | _, _ => results

/-- The comparative analysis step of `main`. -/
def analysis (results : List Entry) : List Entry :=
  match find_scalapack results with
  | none => results
  | some i => (List.range results.length).foldl (fun rs j => compare_at i j rs) results

/-- The entry `entry` after the body of the comparison loop, for the baseline `b`. -/
def compare_with (b entry : Entry) : Entry :=
  if entry.method ≠ "scalapack" ∧ b.time_ms > 0 then
    { entry with
      performance_difference_pct := ((entry.time_ms - b.time_ms) / b.time_ms) * 100
      perf_diff_valid := true }
  else entry

/-! ## Result writer (run_bench.cpp 279-345) -/

/-- The line written to the line-delimited log for one entry. -/
def jsonl_record (host : Host) (entry : Entry) : String :=
  "\x7b"
  ++ "\"timestamp\":\"" ++ entry.timestamp ++ "\","
  ++ "\"method\":\"" ++ entry.method ++ "\","
  ++ "\"n\":" ++ toString entry.n ++ ","
  ++ "\"block\":" ++ toString entry.block ++ ","
  ++ "\"p\":" ++ toString entry.p ++ ","
  ++ "\"q\":" ++ toString entry.q ++ ","
  ++ "\"iters\":" ++ toString entry.iters ++ ","
  ++ "\"runs\":" ++ toString entry.runs ++ ","
  ++ "\"time_ms\":" ++ host.show_double entry.time_ms ++ ","
  ++ "\"memory_usage_kb\":" ++ host.show_double entry.memory_usage_kb ++ ","
  ++ "\"memory_uasge_kb\":" ++ host.show_double entry.memory_usage_kb ++ ","
  ++ "\"theoretical_time_ms\":" ++ host.show_double entry.theoretical_time_ms ++ ","
  ++ "\"theoretical_time\":" ++ host.show_double entry.theoretical_time_ms ++ ","
  ++ (if entry.perf_diff_valid then
        "\"performance_difference_pct\":" ++ host.show_double entry.performance_difference_pct
        ++ "," ++ "\"performance_difference\":"
        ++ host.show_double entry.performance_difference_pct
      else "\"performance_difference_pct\":null," ++ "\"performance_difference\":null")
  ++ "\x7d\n"

/-- The column-header row of the tabular log. -/
def csv_header : String :=
  "timestamp,method,n,block,p,q,iters,runs,time_ms,memory_usage_kb,"
  ++ "memory_uasge_kb,theoretical_time_ms,theoretical_time,performance_difference_pct,"
  ++ "performance_difference\n"

/-- The row written to the tabular log for one entry. -/
def csv_row (host : Host) (entry : Entry) : String :=
  entry.timestamp ++ ","
  ++ entry.method ++ ","
  ++ toString entry.n ++ ","
  ++ toString entry.block ++ ","
  ++ toString entry.p ++ ","
  ++ toString entry.q ++ ","
  ++ toString entry.iters ++ ","
  ++ toString entry.runs ++ ","
  ++ host.show_double entry.time_ms ++ ","
  ++ host.show_double entry.memory_usage_kb ++ ","
  ++ host.show_double entry.memory_usage_kb ++ ","
  ++ host.show_double entry.theoretical_time_ms ++ ","
  ++ host.show_double entry.theoretical_time_ms ++ ","
  ++ (if entry.perf_diff_valid then
        host.show_double entry.performance_difference_pct ++ ","
        ++ host.show_double entry.performance_difference_pct ++ "\n"
      else "," ++ "\n")

/-- The data rows of the tabular log for the entries of one invocation. -/
def csv_rows (host : Host) (results : List Entry) : String :=
  String.join (results.map (csv_row host))

/-- The text the tabular-log stream is given: the header row when the file did
not exist at the check, then the data rows. -/
def csv_text (host : Host) (results : List Entry) (csv_exists : Bool) : String :=
  (if csv_exists then "" else csv_header) ++ csv_rows host results

/-- How the process ends: `main` returns a status, or an exception leaves `main`. -/
inductive Exit where
  | status (code : Int)
  | uncaught (what : String)
deriving DecidableEq

/-- What one invocation leaves behind. -/
structure Run where
  exit : Exit
  world : World
  /-- the commands executed, in order, each with the outcome of `run_command` -/
  trace : List (String × Outcome)
  /-- the output paths on which an output stream was opened, in order -/
  opened : List String
  /-- the vector `results` handed to the writer (empty when it was not reached) -/
  records : List Entry
  /-- the text written to standard output -/
  stdout : String

/-- The writer of `main`.  Both streams buffer what they are given and write it
when they are destroyed at the `return`, the tabular stream first (the records
of one invocation fit the buffer); the files are created when opened. -/
def write_results (host : Host) (args : Args) (results : List Entry) (w : World)
    (trace : List (String × Outcome)) : Run :=
  if host.can_append args.out_jsonl = false then
    { exit := .status 3, world := w, trace := trace, opened := [], records := results,
      stdout := "" }
  else
    let logs := open_append w.logs args.out_jsonl
    let jsonl_text := String.join (results.map (jsonl_record host))
    let csv_exists := file_exists logs args.out_csv
    if host.can_append args.out_csv = false then
      { exit := .status 4
        world := { w with logs := write_append logs args.out_jsonl jsonl_text }
        trace := trace, opened := [args.out_jsonl], records := results, stdout := "" }
    else
      let logs := open_append logs args.out_csv
      let logs := write_append logs args.out_csv (csv_text host results csv_exists)
      let logs := write_append logs args.out_jsonl jsonl_text
      { exit := .status 0
        world := { w with logs := logs }
        trace := trace, opened := [args.out_jsonl, args.out_csv], records := results
        stdout := "\x7b\"status\":\"ok\",\"results\":" ++ toString results.length ++ "\x7d\n" }

/-- The function `main`, on the configuration the option loop of `parse_args`
produced. -/
def main (host : Host) (parsed : Args) (w : World) : Run :=
  match parse_args parsed with
  | .error _ =>
    { exit := .status 1, world := w, trace := [], opened := [], records := [], stdout := "" }
  | .ok args =>
    match run_methods host args (methods args) [] { calls := 0, temps := w.temps, trace := [] } with
    | .raised what st =>
      { exit := .uncaught what, world := { w with temps := st.temps }, trace := st.trace,
        opened := [], records := [], stdout := "" }
    | .failed st =>
      { exit := .status 2, world := { w with temps := st.temps }, trace := st.trace,
        opened := [], records := [], stdout := "" }
    | .done results st =>
      write_results host args (analysis results) { w with temps := st.temps } st.trace

/-! ## Notions used to state the properties of `main` -/

/-- Every executed trial of the trace that returned gave exit code 0. -/
def zero_exits (trace : List (String × Outcome)) : Prop :=
  ∀ c r, (c, Outcome.returned r) ∈ trace → r.returncode = 0

/-- The run loop did not stop at a failed trial, and every trial that returned gave
exit code 0; or it stopped at a failed trial. -/
def Loop.clean_or_failed {α : Type} : Loop α → Prop
  | .done _ st => zero_exits st.trace
  | .raised _ st => zero_exits st.trace
  | .failed _ => True

/-- A host whose every child prints `text`, exits with `code` and is waited for;
a `double` is written as the fraction it is. -/
def plain_host (code : Nat) (text : String) : Host :=
  { spawn := fun _ _ =>
      { stdout_tmp := some "/tmp/chol_stdoutAAAAAA"
        stderr_tmp := some "/tmp/chol_stderrAAAAAA"
        wait := some { exited := some code, maxrss := 1000, elapsed_ms := 12, stdout_text := text } }
    now_iso_utc := fun _ => "2024-01-01T00:00:00Z"
    can_append := fun _ => true
    show_double := fun v =>
      if v.den = 1 then toString v.num else toString v.num ++ "/" ++ toString v.den }

/-- A host whose first child succeeds and whose later children exit with status 1. -/
def late_failure_host : Host :=
  { plain_host 1 "" with
    spawn := fun k command =>
      if k = 0 then (plain_host 0 "").spawn k command else (plain_host 1 "").spawn k command }

/-- A world without any file. -/
def empty_world : World := { logs := fun _ => none, temps := [] }

/-- A standard-output text whose `time_ms` field is the integer `10^309`. -/
def huge_time_text : String :=
  String.mk ("\x7b\"time_ms\": 1".data ++ List.replicate 309 '0' ++ "\x7d".data)

/-- The files after a sequence of invocations, each given by its host and its
configuration. -/
def run_all : List (Host × Args) → World → World
  | [], w => w
  | job :: rest, w => run_all rest (main job.1 job.2 w).world

/-- Every invocation of the sequence returns exit status 0. -/
def all_succeed : List (Host × Args) → World → Prop
  | [], _ => True
  | job :: rest, w =>
    (main job.1 job.2 w).exit = .status 0 ∧ all_succeed rest (main job.1 job.2 w).world

/-- The data rows of the invocations of the sequence, in order. -/
def rows_written : List (Host × Args) → World → String
  | [], _ => ""
  | job :: rest, w =>
    csv_rows job.1 (main job.1 job.2 w).records
      ++ rows_written rest (main job.1 job.2 w).world

/-! ## The files as the operating system keeps them

In `main` above a file is its path text, an existing file can always be read and
every write reaches the file.  `Fs.main` is `main` with the three made explicit:
the state `World.logs` is keyed by the file a path text names, `file_exists` is
the `good()` of an input stream, and the host decides what a write stores. -/

/-- How the process of one invocation reaches the regular files. -/
structure Access where
  /-- the file a path text names: two texts name one file when they differ in
  spelling only (`out.log` and `./out.log`), or through the working directory or
  a link -/
  resolve : String → String
  /-- whether an input stream opened on the file, when the file exists, is `good()` -/
  can_read : String → Bool
  /-- what reaches the file of the text its output stream is given (all of it
  unless a write fails; the program tests no write) -/
  stored : String → String → String

namespace Fs

/-- The function `file_exists(path)` (run_bench.cpp 67-70): an input stream opened
on the path is `good()`, which takes a file that exists and can be read. -/
def file_exists (access : Access) (logs : String → Option String) (path : String) : Bool :=
  (logs (access.resolve path)).isSome && access.can_read (access.resolve path)

/-- The writer of `main` (run_bench.cpp 279-345).  Both streams buffer what they are
given and write it when they are destroyed at the `return`, the tabular stream
first (the records of one invocation fit the buffer); the files are created when
opened. -/
def write_results (access : Access) (host : Host) (args : Args) (results : List Entry)
    (w : World) (trace : List (String × Outcome)) : Run :=
  if host.can_append args.out_jsonl = false then
    { exit := .status 3, world := w, trace := trace, opened := [], records := results,
      stdout := "" }
  else
    let jsonl_file := access.resolve args.out_jsonl
    let csv_file := access.resolve args.out_csv
    let logs := open_append w.logs jsonl_file
    let jsonl_text := String.join (results.map (jsonl_record host))
    let csv_exists := file_exists access logs args.out_csv
    if host.can_append args.out_csv = false then
      { exit := .status 4
        world := { w with logs := write_append logs jsonl_file (access.stored jsonl_file jsonl_text) }
        trace := trace, opened := [args.out_jsonl], records := results, stdout := "" }
    else
      let logs := open_append logs csv_file
      let logs :=
        write_append logs csv_file (access.stored csv_file (csv_text host results csv_exists))
      let logs := write_append logs jsonl_file (access.stored jsonl_file jsonl_text)
      { exit := .status 0
        world := { w with logs := logs }
        trace := trace, opened := [args.out_jsonl, args.out_csv], records := results
        stdout := "\x7b\"status\":\"ok\",\"results\":" ++ toString results.length ++ "\x7d\n" }

/-- The function `main`, on the configuration the option loop of `parse_args`
produced. -/
def main (access : Access) (host : Host) (parsed : Args) (w : World) : Run :=
  match parse_args parsed with
  | .error _ =>
    { exit := .status 1, world := w, trace := [], opened := [], records := [], stdout := "" }
  | .ok args =>
    match run_methods host args (methods args) [] { calls := 0, temps := w.temps, trace := [] } with
    | .raised what st =>
      { exit := .uncaught what, world := { w with temps := st.temps }, trace := st.trace,
        opened := [], records := [], stdout := "" }
    | .failed st =>
      { exit := .status 2, world := { w with temps := st.temps }, trace := st.trace,
        opened := [], records := [], stdout := "" }
    | .done results st =>
      write_results access host args (analysis results) { w with temps := st.temps } st.trace

/-- One invocation of a sequence: how it reaches the files, its host and its
configuration. -/
structure Job where
  access : Access
  host : Host
  args : Args

/-- The files after a sequence of invocations, nothing else (the benchmarked
commands included) touching them. -/
def run_all : List Job → World → World
  | [], w => w
  | job :: rest, w => run_all rest (main job.access job.host job.args w).world

/-- Every invocation of the sequence returns exit status 0. -/
def all_succeed : List Job → World → Prop
  | [], _ => True
  | job :: rest, w =>
    (main job.access job.host job.args w).exit = .status 0
      ∧ all_succeed rest (main job.access job.host job.args w).world

/-- The data rows of the invocations of the sequence, in order. -/
def rows_written : List Job → World → String
  | [], _ => ""
  | job :: rest, w =>
    csv_rows job.host (main job.access job.host job.args w).records
      ++ rows_written rest (main job.access job.host job.args w).world

end Fs

/-- The access `main` assumes: a file is its path text, every file can be read,
every write is stored in full. -/
def direct_access : Access :=
  { resolve := fun path => path, can_read := fun _ => true, stored := fun _ text => text }

/-- An access under which a leading `./` does not change the file a path names. -/
def dot_slash_access : Access :=
  { direct_access with
    resolve := fun path =>
      if "./".data.isPrefixOf path.data then String.mk (path.data.drop 2) else path }

/-- An access under which no file can be read (files that can only be written). -/
def write_only_access : Access :=
  { direct_access with can_read := fun _ => false }

/-- An access under which no write reaches a file (a full disk). -/
def full_disk_access : Access :=
  { direct_access with stored := fun _ _ => "" }

/-- An invocation with the default templates and stubs that exit 0, the tabular
log at `out_csv` and the line-delimited log at `out_jsonl`. -/
def stub_job (access : Access) (n : Int) (out_jsonl out_csv : String) : Fs.Job :=
  { access := access, host := plain_host 0 "",
    args := { n := n, out_jsonl := out_jsonl, out_csv := out_csv } }

/-- Two invocations in a row that name the tabular log `r.csv` and `./r.csv`, and
the line-delimited log `r.jsonl`. -/
def two_spellings : List Fs.Job :=
  [stub_job dot_slash_access 4 "r.jsonl" "r.csv", stub_job dot_slash_access 8 "./r.jsonl" "./r.csv"]

/-- The data rows of one invocation `stub_job` with size `n`. -/
def stub_rows (n : Int) : String :=
  csv_rows (plain_host 0 "") (main (plain_host 0 "") { n := n } empty_world).records

/-- A host whose first two children report 8.0 ms and whose later children report
10.0 ms, each exiting with status 0. -/
def staged_host : Host :=
  { plain_host 0 "" with
    spawn := fun k command =>
      if k < 2 then (plain_host 0 "\x7b\"time_ms\": 8.0\x7d").spawn k command
      else (plain_host 0 "\x7b\"time_ms\": 10.0\x7d").spawn k command }

/-- The record of `hipsolver` at the end of `main` on `staged_host` with `n = 4`. -/
def staged_hipsolver : Entry :=
  { timestamp := "2024-01-01T00:00:00Z", method := "hipsolver", n := 4, block := 256, p := 1,
    q := 1, iters := 3, runs := 1, time_ms := 8, memory_usage_kb := 1000,
    theoretical_time_ms := -1, performance_difference_pct := -20, perf_diff_valid := true }

/-- The record of `scalapack` at the end of `main` on `staged_host` with `n = 4`. -/
def staged_scalapack : Entry :=
  { timestamp := "2024-01-01T00:00:00Z", method := "scalapack", n := 4, block := 256, p := 1,
    q := 1, iters := 3, runs := 1, time_ms := 10, memory_usage_kb := 1000,
    theoretical_time_ms := -1 }

/-- Whether the text `pat` occurs somewhere in `text`. -/
def occurs_in (pat text : String) : Bool :=
  text.data.tails.any (fun t => pat.data.isPrefixOf t)

/-- Two invocations in a row with the default templates, one run per method, the
tabular log at `r.csv` and the line-delimited log at `r.jsonl`. -/
def two_runs : List (Host × Args) :=
  [(plain_host 0 "", { n := 4, out_jsonl := "r.jsonl", out_csv := "r.csv" }),
   (plain_host 0 "", { n := 8, out_jsonl := "r.jsonl", out_csv := "r.csv" })]

/-- The text the line-delimited stream is given for the records. -/
def jsonl_text (host : Host) (results : List Entry) : String :=
  String.join (results.map (jsonl_record host))

/-- During call number `k` of `run_command` the host lets the child run, the child
exits with status 0 and prints a `time_ms` field the regular expression finds, whose
number is within the range of `double` and is `value`. -/
def reports_time (host : Host) (k : Nat) (command : String) (value : ℚ) : Prop :=
  ∃ o e child m,
    host.spawn k command = { stdout_tmp := some o, stderr_tmp := some e, wait := some child }
    ∧ child.exited = some 0
    ∧ regex_search child.stdout_text.data = some m
    ∧ out_of_double_range (decimal_value m) = false
    ∧ decimal_value m = value

/-- The first `bound` calls of `run_command` go as `reports_time` says, the call
number `k` with the self-reported value `values k`. -/
def self_reports (host : Host) (values : Nat → ℚ) (bound : Nat) : Prop :=
  ∀ k command, k < bound → reports_time host k command (values k)

/-- The standard-output text of a stub that reports 5.0 ms. -/
def five_ms_text : String := "\x7b\"time_ms\": 5.0\x7d"

/-! ## Theorems: the command templater -/

theorem lookup_some {T : List (List Char × List Char)} {s : List Char}
    {tv : List Char × List Char} (h : lookup T s = some tv) : tv ∈ T ∧ tv.1 <+: s := by
  unfold lookup at h
  refine ⟨List.mem_of_find?_eq_some h, ?_⟩
  have := List.find?_some h
  simpa [List.isPrefixOf_iff_prefix] using this

theorem lookup_none {T : List (List Char × List Char)} {s : List Char}
    (h : lookup T s = none) : ∀ tv ∈ T, ¬ tv.1 <+: s := by
  unfold lookup at h
  intro tv htv hp
  have := (List.find?_eq_none.mp h) tv htv
  simp [List.isPrefixOf_iff_prefix] at this
  exact this hp

theorem lookup_none_of {T : List (List Char × List Char)} {s : List Char}
    (h : ∀ tv ∈ T, ¬ tv.1 <+: s) : lookup T s = none := by
  unfold lookup
  rw [List.find?_eq_none]
  intro tv htv
  simpa [List.isPrefixOf_iff_prefix] using h tv htv

theorem lookup_nil {T : List (List Char × List Char)} (hT : TokOk T) : lookup T [] = none := by
  apply lookup_none_of
  intro tv htv hp
  obtain ⟨body, hb, -⟩ := hT tv htv
  rw [hb] at hp
  simp at hp

theorem lookup_cons_ne {T : List (List Char × List Char)} (hT : TokOk T) {c : Char}
    (hc : c ≠ '{') (r : List Char) : lookup T (c :: r) = none := by
  apply lookup_none_of
  intro tv htv hp
  obtain ⟨body, hb, -⟩ := hT tv htv
  rw [hb, List.cons_prefix_cons] at hp
  exact hc hp.1.symm

theorem drop_token_lt {T : List (List Char × List Char)} (hT : TokOk T) {s : List Char}
    {tv : List Char × List Char} (h : lookup T s = some tv) :
    (s.drop tv.1.length).length < s.length := by
  obtain ⟨hm, hp⟩ := lookup_some h
  obtain ⟨body, hb, -⟩ := hT tv hm
  have h1 := hp.length_le
  rw [hb] at h1
  rw [List.length_drop, hb]
  simp only [List.length_cons] at h1 ⊢
  omega

theorem scan_fuel {T : List (List Char × List Char)} (hT : TokOk T) :
    ∀ (f g : Nat) (s : List Char), s.length ≤ f → s.length ≤ g → scan T f s = scan T g s := by
  intro f
  induction f with
  | zero =>
    intro g s hf _
    have hs : s = [] := List.length_eq_zero.mp (Nat.le_zero.mp hf)
    subst hs
    cases g <;> simp [scan, lookup_nil hT]
  | succ f ih =>
    intro g s hf hg
    cases g with
    | zero =>
      have hs : s = [] := List.length_eq_zero.mp (Nat.le_zero.mp hg)
      subst hs
      simp [scan, lookup_nil hT]
    | succ g =>
      simp only [scan]
      cases hl : lookup T s with
      | some tv =>
        have hlen := drop_token_lt hT hl
        simp only
        rw [ih g _ (by omega) (by omega)]
      | none =>
        cases s with
        | nil => rfl
        | cons c r =>
          simp only [List.length_cons] at hf hg
          simp only
          rw [ih g r (by omega) (by omega)]

theorem single_pass_nil (T : List (List Char × List Char)) : single_pass T [] = [] := rfl

theorem single_pass_some {T : List (List Char × List Char)} (hT : TokOk T) {s : List Char}
    {tv : List Char × List Char} (h : lookup T s = some tv) :
    single_pass T s = tv.2 ++ single_pass T (s.drop tv.1.length) := by
  have hlen := drop_token_lt hT h
  unfold single_pass
  obtain ⟨n, hn⟩ : ∃ n, s.length = n + 1 := ⟨s.length - 1, by omega⟩
  rw [hn]
  simp only [scan, h]
  rw [scan_fuel hT n _ _ (by omega) (le_refl _)]

theorem single_pass_cons {T : List (List Char × List Char)} {c : Char}
    {r : List Char} (h : lookup T (c :: r) = none) :
    single_pass T (c :: r) = c :: single_pass T r := by
  unfold single_pass
  simp only [List.length_cons, scan, h]

/-- A run of characters without an opening brace is copied by the pass. -/
theorem single_pass_append {T : List (List Char × List Char)} (hT : TokOk T) (r : List Char) :
    ∀ w : List Char, (∀ c ∈ w, c ≠ '{') → single_pass T (w ++ r) = w ++ single_pass T r := by
  intro w
  induction w with
  | nil => intro _; rfl
  | cons c w ih =>
    intro hw
    have hc : c ≠ '{' := hw c (List.mem_cons_self _ _)
    rw [List.cons_append, single_pass_cons (lookup_cons_ne hT hc _),
      ih (fun d hd => hw d (List.mem_cons_of_mem _ hd)), List.cons_append]

theorem value_char_ne_brace {c : Char} (h : value_char c = true) : c ≠ '{' := by
  rintro rfl
  revert h
  decide

theorem plain_char_ne_brace {c : Char} (h : plain_char c = true) : c ≠ '{' := by
  rintro rfl
  revert h
  decide

theorem plain_not_value {c : Char} (h : plain_char c = true) : value_char c = false := by
  unfold plain_char at h
  simp only [Bool.and_eq_true, Bool.not_eq_true'] at h
  exact h.2

/-- A run of plain characters that begins the rendered text begins the template. -/
theorem prefix_of_prefix_single_pass {T : List (List Char × List Char)} (hT : TokOk T)
    (hV : ValOk T) : ∀ (w s : List Char), (∀ c ∈ w, plain_char c = true) →
      w <+: single_pass T s → w <+: s := by
  intro w
  induction w with
  | nil => intro s _ _; exact List.nil_prefix
  | cons c w ih =>
    intro s hw hp
    have hc := hw c (List.mem_cons_self _ _)
    cases hl : lookup T s with
    | some tv =>
      exfalso
      obtain ⟨hm, -⟩ := lookup_some hl
      obtain ⟨hne, hv⟩ := hV tv hm
      rw [single_pass_some hT hl] at hp
      obtain ⟨d, v, hdv⟩ := List.exists_cons_of_ne_nil hne
      rw [hdv, List.cons_append, List.cons_prefix_cons] at hp
      have hd : value_char d = true := hv d (by rw [hdv]; exact List.mem_cons_self _ _)
      rw [← hp.1, plain_not_value hc] at hd
      exact Bool.false_ne_true hd
    | none =>
      cases s with
      | nil =>
        rw [single_pass_nil] at hp
        simp at hp
      | cons d r =>
        rw [single_pass_cons hl, List.cons_prefix_cons] at hp
        rw [List.cons_prefix_cons]
        exact ⟨hp.1, ih r (fun e he => hw e (List.mem_cons_of_mem _ he)) hp.2⟩

theorem lookup_single_pos {tv : List Char × List Char} {s : List Char} (h : tv.1 <+: s) :
    lookup [tv] s = some tv := by
  simp [lookup, List.find?, List.isPrefixOf_iff_prefix.mpr h]

theorem lookup_single_neg {tv : List Char × List Char} {s : List Char} (h : ¬ tv.1 <+: s) :
    lookup [tv] s = none :=
  lookup_none_of (by simpa using h)

theorem lookup_append_some {T : List (List Char × List Char)} {s : List Char}
    {tv : List Char × List Char} (U : List (List Char × List Char))
    (h : lookup T s = some tv) : lookup (T ++ U) s = some tv := by
  unfold lookup at h ⊢
  simp [List.find?_append, h]

theorem lookup_append_none {T : List (List Char × List Char)} {s : List Char}
    (U : List (List Char × List Char)) (h : lookup T s = none) :
    lookup (T ++ U) s = lookup U s := by
  unfold lookup at h ⊢
  simp [List.find?_append, h]

theorem TokOk_append {T U : List (List Char × List Char)} (hT : TokOk T) (hU : TokOk U) :
    TokOk (T ++ U) := by
  intro tv h
  rcases List.mem_append.mp h with h | h
  · exact hT tv h
  · exact hU tv h

theorem ValOk_append {T U : List (List Char × List Char)} (hT : ValOk T) (hU : ValOk U) :
    ValOk (T ++ U) := by
  intro tv h
  rcases List.mem_append.mp h with h | h
  · exact hT tv h
  · exact hU tv h

/-- Where no placeholder of the table begins the template, a placeholder begins
the rendered text exactly when it begins the template. -/
theorem token_prefix_single_pass {T : List (List Char × List Char)} (hT : TokOk T)
    (hV : ValOk T) {body s : List Char} (hb : ∀ c ∈ body, plain_char c = true)
    (hl : lookup T s = none) :
    ('{' :: body) <+: single_pass T s ↔ ('{' :: body) <+: s := by
  constructor
  · intro hp
    cases s with
    | nil => rw [single_pass_nil] at hp; simp at hp
    | cons d r =>
      rw [single_pass_cons hl, List.cons_prefix_cons] at hp
      rw [List.cons_prefix_cons]
      exact ⟨hp.1, prefix_of_prefix_single_pass hT hV body r hb hp.2⟩
  · rintro ⟨r, rfl⟩
    rw [List.cons_append] at hl ⊢
    rw [single_pass_cons hl,
      single_pass_append hT r body (fun c hc => plain_char_ne_brace (hb c hc))]
    exact ⟨single_pass T r, rfl⟩

/-- The rendered text of a template that begins with a placeholder outside the
table: the placeholder is copied and the pass resumes behind it. -/
theorem single_pass_token_append {T : List (List Char × List Char)} (hT : TokOk T)
    {body : List Char} (hb : ∀ c ∈ body, plain_char c = true) (r : List Char)
    (hl : lookup T (('{' :: body) ++ r) = none) :
    single_pass T (('{' :: body) ++ r) = ('{' :: body) ++ single_pass T r := by
  rw [List.cons_append] at hl
  rw [List.cons_append, single_pass_cons hl,
    single_pass_append hT r body (fun c hc => plain_char_ne_brace (hb c hc)), List.cons_append]

/-- Substituting one more placeholder after a pass is the pass over the longer table. -/
theorem single_pass_snoc {T : List (List Char × List Char)} (hT : TokOk T) (hV : ValOk T)
    (tv : List Char × List Char) (hT1 : TokOk [tv]) :
    ∀ (n : Nat) (s : List Char), s.length ≤ n →
      single_pass [tv] (single_pass T s) = single_pass (T ++ [tv]) s := by
  have hTU : TokOk (T ++ [tv]) := TokOk_append hT hT1
  obtain ⟨body, hbody, hplain⟩ := hT1 tv (List.mem_singleton_self _)
  intro n
  induction n with
  | zero =>
    intro s hs
    have : s = [] := List.length_eq_zero.mp (Nat.le_zero.mp hs)
    subst this
    rfl
  | succ n ih =>
    intro s hs
    cases hl : lookup T s with
    | some uv =>
      obtain ⟨hm, -⟩ := lookup_some hl
      have hlen := drop_token_lt hT hl
      rw [single_pass_some hT hl, single_pass_some hTU (lookup_append_some [tv] hl),
        single_pass_append hT1 _ uv.2 (fun c hc => value_char_ne_brace ((hV uv hm).2 c hc)),
        ih _ (by omega)]
    | none =>
      by_cases hp : tv.1 <+: s
      · obtain ⟨r, rfl⟩ := hp
        have hl2 : lookup (T ++ [tv]) (tv.1 ++ r) = some tv := by
          rw [lookup_append_none [tv] hl]
          exact lookup_single_pos (List.prefix_append _ _)
        have hlen := drop_token_lt hTU hl2
        rw [single_pass_some hTU hl2, List.drop_left]
        rw [List.drop_left] at hlen
        have hl3 : lookup T (('{' :: body) ++ r) = none := by rw [← hbody]; exact hl
        have e1 : single_pass T (tv.1 ++ r) = tv.1 ++ single_pass T r := by
          rw [hbody]
          exact single_pass_token_append hT hplain r hl3
        rw [e1, single_pass_some hT1 (lookup_single_pos (List.prefix_append _ _)),
          List.drop_left, ih r (by omega)]
      · have hl2 : lookup (T ++ [tv]) s = none := by
          rw [lookup_append_none [tv] hl]
          exact lookup_single_neg hp
        cases s with
        | nil => rfl
        | cons c r =>
          simp only [List.length_cons] at hs
          have hp2 : ¬ tv.1 <+: single_pass T (c :: r) := by
            rw [hbody, token_prefix_single_pass hT hV hplain hl, ← hbody]
            exact hp
          rw [single_pass_cons hl] at hp2 ⊢
          rw [single_pass_cons hl2, single_pass_cons (lookup_single_neg hp2), ih r (by omega)]

/-- Rendering a rendered text changes nothing. -/
theorem single_pass_idem {T : List (List Char × List Char)} (hT : TokOk T) (hV : ValOk T) :
    ∀ (n : Nat) (s : List Char), s.length ≤ n →
      single_pass T (single_pass T s) = single_pass T s := by
  intro n
  induction n with
  | zero =>
    intro s hs
    have : s = [] := List.length_eq_zero.mp (Nat.le_zero.mp hs)
    subst this
    rfl
  | succ n ih =>
    intro s hs
    cases hl : lookup T s with
    | some uv =>
      obtain ⟨hm, -⟩ := lookup_some hl
      have hlen := drop_token_lt hT hl
      rw [single_pass_some hT hl,
        single_pass_append hT _ uv.2 (fun c hc => value_char_ne_brace ((hV uv hm).2 c hc)),
        ih _ (by omega)]
    | none =>
      cases s with
      | nil => rfl
      | cons c r =>
        simp only [List.length_cons] at hs
        have hl2 : lookup T (single_pass T (c :: r)) = none := by
          apply lookup_none_of
          intro tv htv hp
          obtain ⟨body, hbody, hplain⟩ := hT tv htv
          rw [hbody, token_prefix_single_pass hT hV hplain hl, ← hbody] at hp
          exact lookup_none hl tv htv hp
        rw [single_pass_cons hl] at hl2 ⊢
        rw [single_pass_cons hl2, ih r (by omega)]

/-- No placeholder of the table begins at any position of a rendered text. -/
theorem lookup_suffix_single_pass {T : List (List Char × List Char)} (hT : TokOk T)
    (hV : ValOk T) : ∀ (n : Nat) (s : List Char), s.length ≤ n →
      ∀ t, t <:+ single_pass T s → lookup T t = none := by
  have copy : ∀ (X v : List Char), (∀ c ∈ v, c ≠ '{') → (∀ t, t <:+ X → lookup T t = none) →
      ∀ t, t <:+ v ++ X → lookup T t = none := by
    intro X v
    induction v with
    | nil => intro _ hX t ht; exact hX t ht
    | cons c v ih =>
      intro hv hX t ht
      rw [List.cons_append, List.suffix_cons_iff] at ht
      rcases ht with rfl | ht
      · exact lookup_cons_ne hT (hv c (List.mem_cons_self _ _)) _
      · exact ih (fun d hd => hv d (List.mem_cons_of_mem _ hd)) hX t ht
  intro n
  induction n with
  | zero =>
    intro s hs t ht
    have : s = [] := List.length_eq_zero.mp (Nat.le_zero.mp hs)
    subst this
    rw [single_pass_nil] at ht
    rw [List.suffix_nil.mp ht]
    exact lookup_nil hT
  | succ n ih =>
    intro s hs t ht
    cases hl : lookup T s with
    | some uv =>
      obtain ⟨hm, -⟩ := lookup_some hl
      have hlen := drop_token_lt hT hl
      rw [single_pass_some hT hl] at ht
      exact copy _ uv.2 (fun c hc => value_char_ne_brace ((hV uv hm).2 c hc))
        (ih _ (by omega)) t ht
    | none =>
      cases s with
      | nil =>
        rw [single_pass_nil] at ht
        rw [List.suffix_nil.mp ht]
        exact lookup_nil hT
      | cons c r =>
        simp only [List.length_cons] at hs
        have hl2 : lookup T (single_pass T (c :: r)) = none := by
          apply lookup_none_of
          intro tv htv hp
          obtain ⟨body, hbody, hplain⟩ := hT tv htv
          rw [hbody, token_prefix_single_pass hT hV hplain hl, ← hbody] at hp
          exact lookup_none hl tv htv hp
        rw [single_pass_cons hl] at hl2 ht
        rw [List.suffix_cons_iff] at ht
        rcases ht with rfl | ht
        · exact hl2
        · exact ih r (by omega) t ht

/-! ### The loop of `replace_all` is the one-placeholder pass -/

theorem find_from_none (tv : List Char × List Char) :
    ∀ (s : List Char) (i : Nat), find_from tv.1 s i = none → single_pass [tv] s = s := by
  intro s
  induction s with
  | nil => intro _ _; rfl
  | cons c s ih =>
    intro i h
    simp only [find_from] at h
    split at h
    · exact absurd h (by simp)
    · rename_i hp
      rw [single_pass_cons (lookup_single_neg (by simpa [List.isPrefixOf_iff_prefix] using hp)),
        ih (i + 1) h]

theorem find_from_some {tv : List Char × List Char} (hT : TokOk [tv]) :
    ∀ (s : List Char) (i j : Nat), find_from tv.1 s i = some j →
      ∃ k, j = i + k ∧ k + tv.1.length ≤ s.length ∧
        single_pass [tv] s = s.take k ++ (tv.2 ++ single_pass [tv] (s.drop (k + tv.1.length))) := by
  obtain ⟨body, hbody, -⟩ := hT tv (List.mem_singleton_self _)
  intro s
  induction s with
  | nil =>
    intro i j h
    simp [find_from, hbody] at h
  | cons c s ih =>
    intro i j h
    simp only [find_from] at h
    split at h
    · rename_i hp
      have hp2 : tv.1 <+: c :: s := by simpa [List.isPrefixOf_iff_prefix] using hp
      refine ⟨0, by simpa using (Option.some.inj h).symm, by simpa using hp2.length_le, ?_⟩
      rw [single_pass_some hT (lookup_single_pos hp2)]
      simp
    · rename_i hp
      obtain ⟨k, hk, hlen, hsp⟩ := ih (i + 1) j h
      refine ⟨k + 1, by omega, by simp only [List.length_cons]; omega, ?_⟩
      rw [single_pass_cons (lookup_single_neg (by simpa [List.isPrefixOf_iff_prefix] using hp)),
        hsp]
      simp [Nat.add_right_comm k 1]

theorem replace_loop_eq {tv : List Char × List Char} (hT : TokOk [tv]) :
    ∀ (fuel : Nat) (value : List Char) (pos : Nat), value.length < pos + fuel →
      replace_loop tv.1 tv.2 fuel value pos
        = value.take pos ++ single_pass [tv] (value.drop pos) := by
  obtain ⟨body, hbody, -⟩ := hT tv (List.mem_singleton_self _)
  have htok : 1 ≤ tv.1.length := by rw [hbody]; simp
  intro fuel
  induction fuel with
  | zero =>
    intro value pos h
    simp only [replace_loop]
    rw [List.take_of_length_le (by omega), List.drop_of_length_le (by omega), single_pass_nil,
      List.append_nil]
  | succ fuel ih =>
    intro value pos h
    simp only [replace_loop, find]
    by_cases hpos : pos ≤ value.length
    · rw [if_pos hpos]
      cases hf : find_from tv.1 (value.drop pos) pos with
      | none =>
        simp only
        rw [find_from_none tv _ _ hf, List.take_append_drop]
      | some j =>
        simp only
        obtain ⟨k, hk, hlen, hsp⟩ := find_from_some hT _ _ _ hf
        rw [List.length_drop] at hlen
        have hj : j ≤ value.length := by omega
        have hA : (value.take j ++ tv.2).length = j + tv.2.length := by
          rw [List.length_append, List.length_take, Nat.min_eq_left hj]
        have hB : (value.drop (j + tv.1.length)).length = value.length - (j + tv.1.length) :=
          List.length_drop _ _
        have e1 : value.take j = value.take pos ++ (value.drop pos).take k := by
          rw [hk, List.take_add]
        have e2 : (value.drop pos).drop (k + tv.1.length) = value.drop (j + tv.1.length) := by
          rw [List.drop_drop, hk]
          congr 1
          omega
        rw [ih _ _ (by rw [List.length_append, hA, hB]; omega), List.take_left' hA,
          List.drop_left' hA, hsp, e2, e1]
        simp only [List.append_assoc]
    · rw [if_neg hpos]
      simp only
      rw [List.take_of_length_le (by omega), List.drop_of_length_le (by omega), single_pass_nil,
        List.append_nil]

theorem TokOk_token (key : List Char) (hk : ∀ c ∈ key, plain_char c = true)
    (repl : List Char) : TokOk [(token key, repl)] := by
  intro tv htv
  rw [List.mem_singleton] at htv
  subst htv
  refine ⟨key ++ ['}'], rfl, ?_⟩
  intro c hc
  rcases List.mem_append.mp hc with h | h
  · exact hk c h
  · rw [List.mem_singleton] at h
    subst h
    decide

/-- The function `replace_all` is the one-placeholder pass. -/
theorem replace_all_eq (value : List Char) {key : List Char}
    (hk : ∀ c ∈ key, plain_char c = true) (repl : List Char) :
    replace_all value key repl = single_pass [(token key, repl)] value := by
  have h := replace_loop_eq (TokOk_token key hk repl) (value.length + 1) value 0 (by omega)
  simpa [replace_all] using h

/-- The loop of `replace_all` needs no more iterations than the model allots:
any larger allowance gives the same text. -/
theorem replace_loop_enough (value : List Char) {key : List Char}
    (hk : ∀ c ∈ key, plain_char c = true) (repl : List Char) (fuel : Nat)
    (hfuel : value.length < fuel) :
    replace_loop (token key) repl fuel value 0 = replace_all value key repl := by
  have h := replace_loop_eq (TokOk_token key hk repl) fuel value 0 (by omega)
  rw [replace_all_eq value hk repl]
  simpa using h

theorem digitChar_isDigit (k : Nat) (hk : k < 10) : (Nat.digitChar k).isDigit = true := by
  interval_cases k <;> rfl

theorem toDigitsCore_digits : ∀ (fuel n : Nat) (ds : List Char),
    (∀ c ∈ ds, c.isDigit = true) → ∀ c ∈ Nat.toDigitsCore 10 fuel n ds, c.isDigit = true := by
  intro fuel
  induction fuel with
  | zero => intro n ds h; simpa [Nat.toDigitsCore] using h
  | succ fuel ih =>
    intro n ds h
    have hd : ∀ c ∈ Nat.digitChar (n % 10) :: ds, c.isDigit = true := by
      intro c hc
      rcases List.mem_cons.mp hc with rfl | hc
      · exact digitChar_isDigit _ (Nat.mod_lt _ (by decide))
      · exact h c hc
    simp only [Nat.toDigitsCore]
    split
    · exact hd
    · exact ih _ _ hd

theorem toDigitsCore_ne_nil : ∀ (fuel n : Nat) (ds : List Char),
    ds ≠ [] → Nat.toDigitsCore 10 fuel n ds ≠ [] := by
  intro fuel
  induction fuel with
  | zero => intro n ds h; simpa [Nat.toDigitsCore] using h
  | succ fuel ih =>
    intro n ds _
    simp only [Nat.toDigitsCore]
    split
    · simp
    · exact ih _ _ (by simp)

theorem nat_repr_digits (n : Nat) :
    (Nat.repr n).data ≠ [] ∧ ∀ c ∈ (Nat.repr n).data, c.isDigit = true := by
  constructor
  · show Nat.toDigitsCore 10 (n + 1) n [] ≠ []
    simp only [Nat.toDigitsCore]
    split
    · simp
    · exact toDigitsCore_ne_nil _ _ _ (by simp)
  · exact toDigitsCore_digits (n + 1) n [] (by simp)

/-- A rendered `int` is a non-empty run of digits and signs. -/
theorem to_string_ok (i : Int) :
    to_string i ≠ [] ∧ ∀ c ∈ to_string i, value_char c = true := by
  cases i with
  | ofNat n =>
    obtain ⟨h1, h2⟩ := nat_repr_digits n
    refine ⟨h1, fun c hc => ?_⟩
    have := h2 c hc
    simp [value_char, this]
  | negSucc n =>
    obtain ⟨_, h2⟩ := nat_repr_digits (n + 1)
    have e : to_string (Int.negSucc n) = '-' :: (Nat.repr (n + 1)).data := rfl
    rw [e]
    refine ⟨by simp, fun c hc => ?_⟩
    rcases List.mem_cons.mp hc with rfl | hc
    · decide
    · have := h2 c hc
      simp [value_char, this]

theorem ValOk_to_string (tok : List Char) (i : Int) : ValOk [(tok, to_string i)] := by
  intro tv htv
  rw [List.mem_singleton] at htv
  subst htv
  exact to_string_ok i

theorem substitutions_TokOk (a : Args) : TokOk (substitutions a) :=
  TokOk_append (TokOk_append (TokOk_append (TokOk_append (TokOk_append
    (TokOk_token "n".data (by decide) _)
    (TokOk_token "block".data (by decide) _))
    (TokOk_token "p".data (by decide) _))
    (TokOk_token "q".data (by decide) _))
    (TokOk_token "iters".data (by decide) _))
    (TokOk_token "np".data (by decide) _)

theorem substitutions_ValOk (a : Args) : ValOk (substitutions a) :=
  ValOk_append (ValOk_append (ValOk_append (ValOk_append (ValOk_append
    (ValOk_to_string _ a.n) (ValOk_to_string _ a.block)) (ValOk_to_string _ a.p))
    (ValOk_to_string _ a.q)) (ValOk_to_string _ a.iters))
    (ValOk_to_string _ (int_mul a.p a.q))

/-- The six successive `replace_all` calls of `format_cmd` are one pass over the template. -/
theorem format_chars_eq (templ : List Char) (a : Args) :
    format_chars templ a = single_pass (substitutions a) templ := by
  have kn : ∀ c ∈ "n".data, plain_char c = true := by decide
  have kb : ∀ c ∈ "block".data, plain_char c = true := by decide
  have kp : ∀ c ∈ "p".data, plain_char c = true := by decide
  have kq : ∀ c ∈ "q".data, plain_char c = true := by decide
  have ki : ∀ c ∈ "iters".data, plain_char c = true := by decide
  have knp : ∀ c ∈ "np".data, plain_char c = true := by decide
  have T1 := TokOk_token _ kn (to_string a.n)
  have V1 := ValOk_to_string (token "n".data) a.n
  have T2 := TokOk_append T1 (TokOk_token _ kb (to_string a.block))
  have V2 := ValOk_append V1 (ValOk_to_string (token "block".data) a.block)
  have T3 := TokOk_append T2 (TokOk_token _ kp (to_string a.p))
  have V3 := ValOk_append V2 (ValOk_to_string (token "p".data) a.p)
  have T4 := TokOk_append T3 (TokOk_token _ kq (to_string a.q))
  have V4 := ValOk_append V3 (ValOk_to_string (token "q".data) a.q)
  have T5 := TokOk_append T4 (TokOk_token _ ki (to_string a.iters))
  have V5 := ValOk_append V4 (ValOk_to_string (token "iters".data) a.iters)
  unfold format_chars
  simp only
  rw [replace_all_eq _ kn, replace_all_eq _ kb, replace_all_eq _ kp, replace_all_eq _ kq,
    replace_all_eq _ ki, replace_all_eq _ knp,
    single_pass_snoc T1 V1 _ (TokOk_token _ kb _) templ.length templ le_rfl,
    single_pass_snoc T2 V2 _ (TokOk_token _ kp _) templ.length templ le_rfl,
    single_pass_snoc T3 V3 _ (TokOk_token _ kq _) templ.length templ le_rfl,
    single_pass_snoc T4 V4 _ (TokOk_token _ ki _) templ.length templ le_rfl,
    single_pass_snoc T5 V5 _ (TokOk_token _ knp _) templ.length templ le_rfl]
  rfl

/-- Where it fits in an `int`, the machine product is the exact product. -/
theorem int_mul_exact (a b : Int) (lo : -(2 ^ 31) ≤ a * b) (hi : a * b < 2 ^ 31) :
    int_mul a b = a * b := by
  unfold int_mul
  rw [Int.emod_eq_of_lt (by omega) (by omega)]
  omega

theorem has_recognized_token_false (a : Args) (s : List Char)
    (h : ∀ t, t <:+ s → lookup (substitutions a) t = none) :
    has_recognized_token (String.mk s) = false := by
  unfold has_recognized_token
  rw [List.any_eq_false]
  intro t ht
  have hl := lookup_none (h t ((List.mem_tails _ _).mp ht))
  simp only [Bool.not_eq_true, List.any_eq_false]
  intro tok htok
  have hmem : ∃ v, (tok, v) ∈ substitutions a := by
    simp only [recognized_tokens, List.mem_cons, List.mem_singleton, List.not_mem_nil,
      or_false] at htok
    simp only [substitutions, List.mem_cons, List.mem_singleton, Prod.mk.injEq,
      List.not_mem_nil, or_false]
    rcases htok with h | h | h | h | h | h <;> subst h
    · exact ⟨_, Or.inl ⟨rfl, rfl⟩⟩
    · exact ⟨_, Or.inr (Or.inl ⟨rfl, rfl⟩)⟩
    · exact ⟨_, Or.inr (Or.inr (Or.inl ⟨rfl, rfl⟩))⟩
    · exact ⟨_, Or.inr (Or.inr (Or.inr (Or.inl ⟨rfl, rfl⟩)))⟩
    · exact ⟨_, Or.inr (Or.inr (Or.inr (Or.inr (Or.inl ⟨rfl, rfl⟩))))⟩
    · exact ⟨_, Or.inr (Or.inr (Or.inr (Or.inr (Or.inr ⟨rfl, rfl⟩))))⟩
  obtain ⟨v, hv⟩ := hmem
  have hnp := hl (tok, v) hv
  cases hb : tok.isPrefixOf t with
  | false => rfl
  | true => exact absurd (List.isPrefixOf_iff_prefix.mp hb) hnp

/-- C1. For every template and every configuration, `format_cmd` returns the text
obtained by one left-to-right pass over the template that replaces each occurrence
of `{n}`, `{block}`, `{p}`, `{q}`, `{iters}` by the decimal rendering of that field
and each `{np}` by the decimal rendering of the product `p * q`, copying every other
character; no recognized placeholder is left in the result.  The product rendered is
the exact one unless the exact one does not fit an `int`.  At `n = 512`, `iters = 5`
the template `--n {n} --iters {iters}` gives `--n 512 --iters 5`, and `{foo}` stays
`{foo}`. -/
theorem format_cmd_is_single_pass (templ : String) (args : Args) :
    format_cmd templ args = render_once templ args
    ∧ has_recognized_token (format_cmd templ args) = false
    ∧ (int_mul args.p args.q = args.p * args.q
        ∨ args.p * args.q < -(2 ^ 31) ∨ 2 ^ 31 ≤ args.p * args.q)
    ∧ format_cmd "--n {n} --iters {iters}" { n := 512, iters := 5 } = "--n 512 --iters 5"
    ∧ format_cmd "{foo}" { n := 512, iters := 5 } = "{foo}" := by
  refine ⟨?_, ?_, ?_, by decide, by decide⟩
  · unfold format_cmd render_once
    rw [format_chars_eq]
  · unfold format_cmd
    rw [format_chars_eq]
    exact has_recognized_token_false args _
      (lookup_suffix_single_pass (substitutions_TokOk args) (substitutions_ValOk args)
        templ.data.length templ.data le_rfl)
  · by_cases lo : -(2 ^ 31) ≤ args.p * args.q
    · by_cases hi : args.p * args.q < 2 ^ 31
      · exact Or.inl (int_mul_exact _ _ lo hi)
      · exact Or.inr (Or.inr (not_lt.mp hi))
    · exact Or.inr (Or.inl (not_le.mp lo))

/-- C2. Template substitution is idempotent: formatting an already formatted command
with the same configuration returns it unchanged. -/
theorem format_cmd_idempotent (templ : String) (args : Args) :
    format_cmd (format_cmd templ args) args = format_cmd templ args := by
  unfold format_cmd
  simp only
  rw [format_chars_eq, format_chars_eq,
    single_pass_idem (substitutions_TokOk args) (substitutions_ValOk args)
      templ.data.length templ.data le_rfl]

/-! ## Theorems: the comparative analysis -/

theorem compare_with_baseline (b e : Entry) (he : e.method = "scalapack") :
    compare_with b e = e := by
  simp [compare_with, he]

/-- The state of the vector after the comparison loop has handled the first `j`
positions: those entries are compared, the others untouched. -/
theorem fold_compare_at (rs : List Entry) (i : Nat) (b : Entry) (hi : rs[i]? = some b)
    (hb : b.method = "scalapack") (j : Nat) :
    ((List.range j).foldl (fun acc k => compare_at i k acc) rs).length = rs.length
    ∧ ∀ k, ((List.range j).foldl (fun acc k => compare_at i k acc) rs)[k]?
        = if k < j then (rs[k]?).map (compare_with b) else rs[k]? := by
  induction j with
  | zero => simp
  | succ j ih =>
    obtain ⟨hlen, hget⟩ := ih
    rw [List.range_succ, List.foldl_append]
    simp only [List.foldl_cons, List.foldl_nil]
    generalize (List.range j).foldl (fun acc k => compare_at i k acc) rs = R at hlen hget
    have hRj : R[j]? = rs[j]? := by rw [hget j]; simp
    have hRi : R[i]? = some b := by
      rw [hget i, hi]
      split
      · simp [compare_with_baseline b b hb]
      · rfl
    unfold compare_at
    rw [hRj, hRi]
    cases hj : rs[j]? with
    | none =>
      refine ⟨hlen, fun k => ?_⟩
      rw [hget k]
      by_cases hk : k < j
      · simp [hk, Nat.lt_succ_of_lt hk]
      · by_cases hkj : k = j
        · subst hkj
          simp [hj]
        · have : ¬ k < j + 1 := by omega
          simp [hk, this]
    | some e =>
      have hjlt : j < R.length := by
        rw [hlen]
        by_contra hcon
        rw [List.getElem?_eq_none (by omega)] at hj
        exact absurd hj (by simp)
      simp only
      by_cases hc : e.method ≠ "scalapack" ∧ b.time_ms > 0
      · rw [if_pos hc]
        refine ⟨by rw [List.length_set, hlen], fun k => ?_⟩
        rw [List.getElem?_set]
        by_cases hkj : j = k
        · subst hkj
          simp [hjlt, hj, compare_with, hc]
        · rw [if_neg hkj, hget k]
          by_cases hk : k < j
          · simp [hk, Nat.lt_succ_of_lt hk]
          · have : ¬ k < j + 1 := by omega
            simp [hk, this]
      · rw [if_neg hc]
        refine ⟨hlen, fun k => ?_⟩
        rw [hget k]
        by_cases hk : k < j
        · simp [hk, Nat.lt_succ_of_lt hk]
        · by_cases hkj : k = j
          · subst hkj
            simp [hj, compare_with, hc]
          · have : ¬ k < j + 1 := by omega
            simp [hk, this]

/-- The comparison loop, run through the pointer into the vector it updates, is the
entry-by-entry comparison with the first entry named `scalapack`. -/
theorem analysis_eq (rs : List Entry) :
    analysis rs =
      match rs.find? (fun entry => entry.method == "scalapack") with
      | none => rs
      | some b => rs.map (compare_with b) := by
  unfold analysis find_scalapack
  cases hidx : rs.findIdx? (fun entry => entry.method == "scalapack") with
  | none =>
    have hnone : rs.find? (fun entry => entry.method == "scalapack") = none := by
      rw [List.find?_eq_none]
      intro x hx
      rw [(List.findIdx?_eq_none_iff.mp hidx) x hx]
      exact Bool.false_ne_true
    rw [hnone]
  | some i =>
    obtain ⟨hlt, hp, hbefore⟩ := List.findIdx?_eq_some_iff_getElem.mp hidx
    have hfind : rs.find? (fun entry => entry.method == "scalapack") = some rs[i] := by
      rw [List.find?_eq_some]
      refine ⟨hp, rs.take i, rs.drop (i + 1), ?_, ?_⟩
      · rw [← List.drop_eq_getElem_cons hlt, List.take_append_drop]
      · intro a ha
        obtain ⟨k, hk, rfl⟩ := List.getElem_of_mem ha
        rw [List.length_take] at hk
        have hki : k < i := by omega
        rw [List.getElem_take]
        simpa using hbefore k hki
    rw [hfind]
    simp only
    have hb : rs[i].method = "scalapack" := by simpa using hp
    obtain ⟨hlen, hget⟩ :=
      fold_compare_at rs i rs[i] (List.getElem?_eq_getElem hlt) hb rs.length
    apply List.ext_getElem?
    intro k
    rw [hget k, List.getElem?_map]
    by_cases hk : k < rs.length
    · rw [if_pos hk]
    · rw [if_neg hk, List.getElem?_eq_none (by omega)]
      rfl

/-- The analysis of a list with pairwise distinct method names that holds a record
`b` named `scalapack` with a strictly positive mean time: every record not named
`scalapack` gets its comparison with `b` and is marked valid, the others are left. -/
theorem analysis_of_distinct_names (rs : List Entry) (b : Entry)
    (hnames : (rs.map (fun e => e.method)).Nodup)
    (hmem : b ∈ rs) (hname : b.method = "scalapack") (hpos : 0 < b.time_ms) :
    analysis rs = rs.map (fun e =>
      if e.method = "scalapack" then e
      else
        { e with
          performance_difference_pct := ((e.time_ms - b.time_ms) / b.time_ms) * 100
          perf_diff_valid := true }) := by
  rw [analysis_eq]
  cases hfind : rs.find? (fun entry => entry.method == "scalapack") with
  | none =>
    have := (List.find?_eq_none.mp hfind) b hmem
    simp [hname] at this
  | some b1 =>
    have hb1 : b1.method = "scalapack" := by simpa using List.find?_some hfind
    have hbb : b1 = b :=
      List.inj_on_of_nodup_map hnames (List.mem_of_find?_eq_some hfind) hmem
        (by rw [hb1, hname])
    subst hbb
    simp only
    apply List.map_congr_left
    intro e _
    by_cases hm : e.method = "scalapack"
    · simp [compare_with, hm]
    · simp [compare_with, hm, hpos]

/-- After the analysis of records built without a comparison, a record is marked
valid only if it is not named `scalapack` and the first record named `scalapack`
exists and has a strictly positive mean time. -/
theorem valid_after_analysis (rs : List Entry)
    (hfresh : ∀ r ∈ rs, r.perf_diff_valid = false)
    (e : Entry) (he : e ∈ analysis rs) (hvalid : e.perf_diff_valid = true) :
    e.method ≠ "scalapack"
    ∧ ∃ b, rs.find? (fun r => r.method == "scalapack") = some b
        ∧ b ∈ rs ∧ b.method = "scalapack" ∧ 0 < b.time_ms := by
  rw [analysis_eq] at he
  cases hfind : rs.find? (fun entry => entry.method == "scalapack") with
  | none =>
    rw [hfind] at he
    rw [hfresh e he] at hvalid
    exact absurd hvalid Bool.false_ne_true
  | some b =>
    rw [hfind] at he
    obtain ⟨e0, he0, rfl⟩ := List.mem_map.mp he
    have hb : b.method = "scalapack" := by simpa using List.find?_some hfind
    by_cases hc : e0.method ≠ "scalapack" ∧ b.time_ms > 0
    · refine ⟨?_, b, rfl, List.mem_of_find?_eq_some hfind, hb, hc.2⟩
      simp only [compare_with, if_pos hc]
      exact hc.1
    · simp only [compare_with, if_neg hc] at hvalid
      rw [hfresh e0 he0] at hvalid
      exact absurd hvalid Bool.false_ne_true

theorem compare_with_method (b e : Entry) : (compare_with b e).method = e.method := by
  unfold compare_with
  split <;> rfl

/-- The analysis neither adds nor drops a record named `scalapack`. -/
theorem mem_analysis_scalapack (rs : List Entry) (b : Entry) (hname : b.method = "scalapack") :
    b ∈ analysis rs ↔ b ∈ rs := by
  rw [analysis_eq]
  cases hfind : rs.find? (fun entry => entry.method == "scalapack") with
  | none => rfl
  | some b0 =>
    simp only [List.mem_map]
    constructor
    · rintro ⟨x, hx, hxb⟩
      have hm : x.method = "scalapack" := by rw [← compare_with_method b0 x, hxb, hname]
      rw [compare_with_baseline b0 x hm] at hxb
      rw [← hxb]
      exact hx
    · intro hb
      exact ⟨b, hb, compare_with_baseline b0 b hname⟩

/-! ## Theorems: aggregation and estimate -/

theorem foldl_add_eq_sum (values : List ℚ) (init : ℚ) :
    values.foldl (fun sum v => sum + v) init = init + values.sum := by
  induction values generalizing init with
  | nil => simp
  | cons v vs ih => rw [List.foldl_cons, ih, List.sum_cons, add_assoc]

/-- In exact arithmetic, as the model of `main` computes: for every non-empty series
`average` returns the sum of its elements divided by its length; for the empty
series it returns -1 (and not the value `0` a division by the length `0` has in
`ℚ`). -/
theorem average_is_mean :
    average [] = -1
    ∧ ∀ (v : ℚ) (vs : List ℚ),
        average (v :: vs) = (v :: vs).sum / ((v :: vs).length : ℚ) := by
  refine ⟨rfl, fun v vs => ?_⟩
  unfold average
  rw [if_neg (by simp), foldl_add_eq_sum, zero_add]

/-- In exact arithmetic, as the model of `main` computes: the estimate is -1 when
the peak figure is not strictly positive, and `((n^3)/3) / (peak_tflops * 10^12) * 1000`
otherwise. -/
theorem theoretical_time_ms_value (n : Int) (peak_tflops : ℚ) :
    theoretical_time_ms n peak_tflops
      = (if 0 < peak_tflops then (((n : ℚ) ^ 3) / 3) / (peak_tflops * 10 ^ 12) * 1000 else -1)
    ∧ theoretical_time_ms 100 10 = ((100 : ℚ) ^ 3 / 3) / (10 * 10 ^ 12) * 1000
    ∧ theoretical_time_ms 100 0 = -1 := by
  have general : ∀ (m : Int) (peak : ℚ), theoretical_time_ms m peak
      = (if 0 < peak then (((m : ℚ) ^ 3) / 3) / (peak * 10 ^ 12) * 1000 else -1) := by
    intro m peak
    unfold theoretical_time_ms
    by_cases h : 0 < peak
    · rw [if_pos h, if_neg (not_le.mpr h)]
      norm_num
      ring
    · rw [if_neg h, if_pos (not_lt.mp h)]
  refine ⟨general n peak_tflops, ?_, ?_⟩
  · rw [general]
    norm_num
  · rw [general]
    norm_num

/-! ### The two functions in binary64 -/

theorem to_double_zero : Ieee.to_double 0 = .finite 0 := by
  unfold Ieee.to_double
  rw [if_pos rfl]

theorem add_finite (a b : ℚ) :
    Ieee.add (.finite a) (.finite b) = Ieee.to_double (a + b) := rfl

theorem mul_finite (a b : ℚ) :
    Ieee.mul (.finite a) (.finite b) = Ieee.to_double (a * b) := rfl

theorem div_finite (a b : ℚ) (hb : b ≠ 0) :
    Ieee.div (.finite a) (.finite b) = Ieee.to_double (a / b) := by
  simp [Ieee.div, hb]

theorem div_nan (x : Ieee.Double) : Ieee.div x .nan = .nan := by
  cases x <;> rfl

/-! #### The rounding error of one operation -/

theorem pow2_eq (e : Int) : Ieee.pow2 e = (2 : ℚ) ^ e := by
  unfold Ieee.pow2
  split
  · rename_i h
    conv_rhs => rw [← Int.toNat_of_nonneg h]
    rw [zpow_natCast]
  · rename_i h
    have h' : 0 ≤ -e := by omega
    have : e = -((-e).toNat : Int) := by rw [Int.toNat_of_nonneg h']; ring
    conv_rhs => rw [this]
    rw [zpow_neg, zpow_natCast, one_div]

theorem bit_length_spec : ∀ (fuel n : Nat), 1 ≤ n → n ≤ fuel →
    2 ^ Ieee.bit_length fuel n ≤ n ∧ n < 2 ^ (Ieee.bit_length fuel n + 1)
  | 0, n, h1, h2 => by omega
  | fuel + 1, n, h1, h2 => by
    unfold Ieee.bit_length
    split
    · rename_i h
      obtain ⟨ih1, ih2⟩ := bit_length_spec fuel (n / 2) (by omega) (by omega)
      constructor
      · calc 2 ^ (Ieee.bit_length fuel (n / 2) + 1)
            = 2 ^ Ieee.bit_length fuel (n / 2) * 2 := Nat.pow_succ _ _
          _ ≤ n / 2 * 2 := Nat.mul_le_mul_right 2 ih1
          _ ≤ n := Nat.div_mul_le_self n 2
      · have h3 : n < (n / 2 + 1) * 2 := by omega
        calc n < (n / 2 + 1) * 2 := h3
          _ ≤ 2 ^ (Ieee.bit_length fuel (n / 2) + 1) * 2 := Nat.mul_le_mul_right 2 ih2
          _ = 2 ^ (Ieee.bit_length fuel (n / 2) + 1 + 1) := (Nat.pow_succ _ _).symm
    · simp
      omega

theorem log2_spec (n : Nat) (h : 1 ≤ n) :
    2 ^ Ieee.log2 n ≤ n ∧ n < 2 ^ (Ieee.log2 n + 1) :=
  bit_length_spec n n h le_rfl

theorem ratio_between_powers (N D a b : Nat) (hD : 0 < D)
    (n1 : 2 ^ a ≤ N) (n2 : N < 2 ^ (a + 1)) (d1 : 2 ^ b ≤ D) (d2 : D < 2 ^ (b + 1)) :
    (2 : ℚ) ^ ((a : Int) - (b : Int) - 1) ≤ (N : ℚ) / D
    ∧ (N : ℚ) / D < (2 : ℚ) ^ ((a : Int) - (b : Int) + 1) := by
  have hDpos : (0 : ℚ) < D := by exact_mod_cast hD
  have n1' : (2 : ℚ) ^ a ≤ (N : ℚ) := by exact_mod_cast n1
  have n2' : (N : ℚ) < (2 : ℚ) ^ (a + 1) := by exact_mod_cast n2
  have d1' : (2 : ℚ) ^ b ≤ (D : ℚ) := by exact_mod_cast d1
  have d2' : (D : ℚ) < (2 : ℚ) ^ (b + 1) := by exact_mod_cast d2
  have two_ne : (2 : ℚ) ≠ 0 := by norm_num
  constructor
  · have e : (2 : ℚ) ^ ((a : Int) - (b : Int) - 1) = (2 : ℚ) ^ a / (2 : ℚ) ^ (b + 1) := by
      rw [show ((a : Int) - (b : Int) - 1) = ((a : Nat) : Int) - ((b + 1 : Nat) : Int) by
            push_cast; ring,
        zpow_sub₀ two_ne, zpow_natCast, zpow_natCast]
    rw [e, div_le_div_iff₀ (by positivity) hDpos]
    calc (2 : ℚ) ^ a * D ≤ (N : ℚ) * D := by gcongr
      _ ≤ (N : ℚ) * 2 ^ (b + 1) := by gcongr
  · have e : (2 : ℚ) ^ ((a : Int) - (b : Int) + 1) = (2 : ℚ) ^ (a + 1) / (2 : ℚ) ^ b := by
      rw [show ((a : Int) - (b : Int) + 1) = ((a + 1 : Nat) : Int) - ((b : Nat) : Int) by
            push_cast; ring,
        zpow_sub₀ two_ne, zpow_natCast, zpow_natCast]
    rw [e, div_lt_div_iff₀ hDpos (by positivity)]
    calc (N : ℚ) * 2 ^ b ≤ (N : ℚ) * D := by gcongr
      _ < 2 ^ (a + 1) * D := by gcongr

theorem rat_eq_natAbs_div (q : ℚ) (hq : 0 ≤ q) : q = (q.num.natAbs : ℚ) / (q.den : ℚ) := by
  have hnum : 0 ≤ q.num := Rat.num_nonneg.mpr hq
  have : ((q.num.natAbs : Int) : ℚ) = (q.num : ℚ) := by
    rw [Int.natAbs_of_nonneg hnum]
  rw [← Int.cast_natCast, this]
  exact (Rat.num_div_den q).symm

theorem rat_eq_toNat_div (q : ℚ) (hq : 0 ≤ q) : q = (q.num.toNat : ℚ) / (q.den : ℚ) := by
  have hnum : 0 ≤ q.num := Rat.num_nonneg.mpr hq
  have : ((q.num.toNat : Int) : ℚ) = (q.num : ℚ) := by
    rw [Int.toNat_of_nonneg hnum]
  rw [← Int.cast_natCast, this]
  exact (Rat.num_div_den q).symm

/-- The binary exponent brackets the number. -/
theorem exponent_spec (q : ℚ) (hq : 0 < q) :
    (2 : ℚ) ^ Ieee.exponent q ≤ q ∧ q < (2 : ℚ) ^ (Ieee.exponent q + 1) := by
  have hnum : 0 < q.num := Rat.num_pos.mpr hq
  have hN : 1 ≤ q.num.natAbs := by omega
  obtain ⟨n1, n2⟩ := log2_spec q.num.natAbs hN
  obtain ⟨d1, d2⟩ := log2_spec q.den q.den_pos
  have hb := ratio_between_powers q.num.natAbs q.den _ _ q.den_pos n1 n2 d1 d2
  rw [← rat_eq_natAbs_div q hq.le] at hb
  unfold Ieee.exponent
  simp only
  split
  · rename_i h
    rw [pow2_eq] at h
    exact ⟨h, hb.2⟩
  · rename_i h
    rw [pow2_eq] at h
    refine ⟨hb.1, ?_⟩
    rw [sub_add_cancel]
    exact lt_of_not_le h

theorem nearest_even_core (N D : Nat) (hD : 0 < D) :
    |(((if 2 * (N % D) < D then N / D
        else if D < 2 * (N % D) then N / D + 1
        else if (N / D) % 2 = 0 then N / D else N / D + 1 : Nat) : ℚ)) - (N : ℚ) / D|
      ≤ 1 / 2 := by
  have hDq : (0 : ℚ) < D := by exact_mod_cast hD
  have hdiv : N = D * (N / D) + N % D := (Nat.div_add_mod _ _).symm
  have hmod : N % D < D := Nat.mod_lt _ hD
  generalize N / D = f at hdiv
  generalize N % D = r at hdiv hmod
  have hm2 : (N : ℚ) / D = f + (r : ℚ) / D := by
    rw [hdiv]
    push_cast
    field_simp
    ring
  rw [hm2]
  have hrq : (r : ℚ) < D := by exact_mod_cast hmod
  have hr0 : (0 : ℚ) ≤ r := by positivity
  have key : ∀ x : ℚ, |x| ≤ 1 / 2 ↔ -(1 / 2) ≤ x ∧ x ≤ 1 / 2 := fun x => abs_le
  split
  · rename_i h
    have h' : 2 * (r : ℚ) < D := by exact_mod_cast h
    rw [key]
    constructor
    · have : (r : ℚ) / D ≤ 1 / 2 := by rw [div_le_iff₀ hDq]; linarith
      linarith
    · have : 0 ≤ (r : ℚ) / D := by positivity
      linarith
  · rename_i h
    have h' : (D : ℚ) ≤ 2 * r := by
      have : D ≤ 2 * r := Nat.le_of_not_lt h
      exact_mod_cast this
    have ge_half : 1 / 2 ≤ (r : ℚ) / D := by rw [le_div_iff₀ hDq]; linarith
    have lt_one : (r : ℚ) / D < 1 := by rw [div_lt_iff₀ hDq]; linarith
    split
    · rw [key]; push_cast; constructor <;> linarith
    · rename_i h2
      have h2' : 2 * (r : ℚ) ≤ D := by
        have : 2 * r ≤ D := Nat.le_of_not_lt h2
        exact_mod_cast this
      have le_half : (r : ℚ) / D ≤ 1 / 2 := by rw [div_le_iff₀ hDq]; linarith
      split
      · rw [key]; constructor <;> linarith
      · rw [key]; push_cast; constructor <;> linarith

/-- The integer chosen is within one half of the number. -/
theorem nearest_even_spec (m : ℚ) (hm : 0 ≤ m) :
    |(Ieee.nearest_even m : ℚ) - m| ≤ 1 / 2 := by
  have h := nearest_even_core m.num.toNat m.den m.den_pos
  rw [← rat_eq_toNat_div m hm] at h
  exact h

/-- The grid on which `q` is rounded: `2^p` with `p` the exponent of the last place. -/
theorem rounded_value_error (q : ℚ) (hq : 0 < q) (p : Int) :
    |(Ieee.nearest_even (q / Ieee.pow2 p) : ℚ) * Ieee.pow2 p - q| ≤ Ieee.pow2 p / 2 := by
  have hp : (0 : ℚ) < Ieee.pow2 p := by rw [pow2_eq]; positivity
  have h := nearest_even_spec (q / Ieee.pow2 p) (by positivity)
  have e : (Ieee.nearest_even (q / Ieee.pow2 p) : ℚ) * Ieee.pow2 p - q
      = ((Ieee.nearest_even (q / Ieee.pow2 p) : ℚ) - q / Ieee.pow2 p) * Ieee.pow2 p := by
    field_simp
  rw [e, abs_mul, abs_of_pos hp]
  calc |(Ieee.nearest_even (q / Ieee.pow2 p) : ℚ) - q / Ieee.pow2 p| * Ieee.pow2 p
      ≤ 1 / 2 * Ieee.pow2 p := by gcongr
    _ = Ieee.pow2 p / 2 := by ring

/-- In the normal range the last place is 52 binary places below the exponent. -/
theorem last_place_normal (q : ℚ) (hmin : DBL_MIN ≤ q) :
    max (Ieee.exponent q - 52) (-1074) = Ieee.exponent q - 52
    ∧ Ieee.pow2 (Ieee.exponent q - 52) / 2 ≤ q / 2 ^ 53 := by
  have hq : 0 < q := lt_of_lt_of_le (by unfold DBL_MIN; positivity) hmin
  obtain ⟨lo, hi⟩ := exponent_spec q hq
  have hmin' : (2 : ℚ) ^ (-1022 : Int) ≤ q := by
    have : (2 : ℚ) ^ (-1022 : Int) = DBL_MIN := by
      unfold DBL_MIN
      rw [zpow_neg, one_div]
      norm_cast
    rw [this]; exact hmin
  have hlt : (2 : ℚ) ^ (-1022 : Int) < (2 : ℚ) ^ (Ieee.exponent q + 1) := lt_of_le_of_lt hmin' hi
  have hexp : (-1022 : Int) < Ieee.exponent q + 1 :=
    (zpow_lt_zpow_iff_right₀ (by norm_num : (1 : ℚ) < 2)).mp hlt
  constructor
  · exact max_eq_left (by omega)
  · rw [pow2_eq, zpow_sub₀ (by norm_num : (2 : ℚ) ≠ 0)]
    have : (2 : ℚ) ^ (52 : Int) = 2 ^ 52 := by norm_cast
    rw [this, div_div]
    have h53 : (2 : ℚ) ^ 52 * 2 = 2 ^ 53 := by norm_num
    rw [h53]
    gcongr

/-- Rounding a number of the normal range that is at most `2^1023` gives a finite
`double` within the relative error `2^-53`. -/
theorem to_double_normal (q : ℚ) (hmin : DBL_MIN ≤ q) (hmax : q ≤ 2 ^ 1023) :
    ∃ v : ℚ, Ieee.to_double q = .finite v ∧ |v - q| ≤ q / 2 ^ 53 := by
  have hq : 0 < q := lt_of_lt_of_le (by unfold DBL_MIN; positivity) hmin
  obtain ⟨hp, hbound⟩ := last_place_normal q hmin
  have herr := rounded_value_error q hq (Ieee.exponent q - 52)
  have herr2 := le_trans herr hbound
  refine ⟨(Ieee.nearest_even (q / Ieee.pow2 (Ieee.exponent q - 52)) : ℚ)
      * Ieee.pow2 (Ieee.exponent q - 52), ?_, herr2⟩
  have hlt : (Ieee.nearest_even (q / Ieee.pow2 (Ieee.exponent q - 52)) : ℚ)
      * Ieee.pow2 (Ieee.exponent q - 52) < 2 ^ 1024 := by
    have h1 := (abs_le.mp herr2).2
    have h2 : q / 2 ^ 53 ≤ 2 ^ 1023 / 2 ^ 53 := by gcongr
    have h3 : (2 : ℚ) ^ 1023 + 2 ^ 1023 / 2 ^ 53 < 2 ^ 1024 := by norm_num
    linarith
  unfold Ieee.to_double Ieee.round_magnitude
  rw [if_neg hq.ne', if_pos hq]
  simp only [hp]
  rw [if_neg (not_le.mpr hlt)]

/-! #### Numbers within a few roundings of each other -/
theorem slack_pos : 0 < Ieee.slack := by unfold Ieee.slack; norm_num

theorem one_le_slack : 1 ≤ Ieee.slack := by unfold Ieee.slack; norm_num

theorem one_le_slack_pow (k : Nat) : 1 ≤ Ieee.slack ^ k := one_le_pow₀ one_le_slack

theorem near_pos {k : Nat} {x y : ℚ} (h : Ieee.near k x y) : 0 < x := by
  obtain ⟨hy, h1, _⟩ := h
  have hr : 0 < Ieee.slack ^ k := pow_pos slack_pos k
  by_contra hx
  have : x * Ieee.slack ^ k ≤ 0 := mul_nonpos_of_nonpos_of_nonneg (not_lt.mp hx) hr.le
  linarith

theorem near_refl {y : ℚ} (hy : 0 < y) : Ieee.near 0 y y := by
  refine ⟨hy, ?_, ?_⟩ <;> simp

theorem near_trans {j k : Nat} {v x y : ℚ} (h1 : Ieee.near j x y) (h2 : Ieee.near k v x) :
    Ieee.near (j + k) v y := by
  obtain ⟨hy, a1, a2⟩ := h1
  obtain ⟨hx, b1, b2⟩ := h2
  have hrj : 0 < Ieee.slack ^ j := pow_pos slack_pos j
  have hrk : 0 < Ieee.slack ^ k := pow_pos slack_pos k
  refine ⟨hy, ?_, ?_⟩
  · calc y ≤ x * Ieee.slack ^ j := a1
      _ ≤ (v * Ieee.slack ^ k) * Ieee.slack ^ j := by gcongr
      _ = v * Ieee.slack ^ (j + k) := by rw [pow_add]; ring
  · calc v ≤ x * Ieee.slack ^ k := b2
      _ ≤ (y * Ieee.slack ^ j) * Ieee.slack ^ k := by gcongr
      _ = y * Ieee.slack ^ (j + k) := by rw [pow_add]; ring

theorem near_mul {j k : Nat} {x1 y1 x2 y2 : ℚ} (h1 : Ieee.near j x1 y1)
    (h2 : Ieee.near k x2 y2) : Ieee.near (j + k) (x1 * x2) (y1 * y2) := by
  have hx1 := near_pos h1
  have hx2 := near_pos h2
  obtain ⟨hy1, a1, a2⟩ := h1
  obtain ⟨hy2, b1, b2⟩ := h2
  have hrj : 0 < Ieee.slack ^ j := pow_pos slack_pos j
  have hrk : 0 < Ieee.slack ^ k := pow_pos slack_pos k
  refine ⟨mul_pos hy1 hy2, ?_, ?_⟩
  · calc y1 * y2 ≤ (x1 * Ieee.slack ^ j) * (x2 * Ieee.slack ^ k) := by gcongr
      _ = x1 * x2 * Ieee.slack ^ (j + k) := by rw [pow_add]; ring
  · calc x1 * x2 ≤ (y1 * Ieee.slack ^ j) * (y2 * Ieee.slack ^ k) := by gcongr
      _ = y1 * y2 * Ieee.slack ^ (j + k) := by rw [pow_add]; ring

theorem near_div {j k : Nat} {x1 y1 x2 y2 : ℚ} (h1 : Ieee.near j x1 y1)
    (h2 : Ieee.near k x2 y2) : Ieee.near (j + k) (x1 / x2) (y1 / y2) := by
  have hx1 := near_pos h1
  have hx2 := near_pos h2
  obtain ⟨hy1, a1, a2⟩ := h1
  obtain ⟨hy2, b1, b2⟩ := h2
  have hrj : 0 < Ieee.slack ^ j := pow_pos slack_pos j
  have hrk : 0 < Ieee.slack ^ k := pow_pos slack_pos k
  refine ⟨div_pos hy1 hy2, ?_, ?_⟩
  · rw [div_le_iff₀ hy2]
    calc y1 ≤ x1 * Ieee.slack ^ j := a1
      _ = x1 / x2 * Ieee.slack ^ j * x2 := by field_simp
      _ ≤ x1 / x2 * Ieee.slack ^ j * (y2 * Ieee.slack ^ k) := by gcongr
      _ = x1 / x2 * Ieee.slack ^ (j + k) * y2 := by rw [pow_add]; ring
  · rw [div_le_iff₀ hx2]
    calc x1 ≤ y1 * Ieee.slack ^ j := a2
      _ = y1 / y2 * Ieee.slack ^ j * y2 := by field_simp
      _ ≤ y1 / y2 * Ieee.slack ^ j * (x2 * Ieee.slack ^ k) := by gcongr
      _ = y1 / y2 * Ieee.slack ^ (j + k) * x2 := by rw [pow_add]; ring

theorem near_add {j : Nat} {s S x : ℚ} (h : Ieee.near j s S) (hx : 0 ≤ x) :
    Ieee.near j (s + x) (S + x) := by
  obtain ⟨hS, a1, a2⟩ := h
  have hr := one_le_slack_pow j
  refine ⟨by linarith, ?_, ?_⟩
  · have : x ≤ x * Ieee.slack ^ j := le_mul_of_one_le_right hx hr
    calc S + x ≤ s * Ieee.slack ^ j + x * Ieee.slack ^ j := by linarith
      _ = (s + x) * Ieee.slack ^ j := by ring
  · have : x ≤ x * Ieee.slack ^ j := le_mul_of_one_le_right hx hr
    calc s + x ≤ S * Ieee.slack ^ j + x * Ieee.slack ^ j := by linarith
      _ = (S + x) * Ieee.slack ^ j := by ring

/-- One rounding in the normal range. -/
theorem near_round (q : ℚ) (hmin : DBL_MIN ≤ q) (hmax : q ≤ 2 ^ 1023) :
    ∃ v : ℚ, Ieee.to_double q = .finite v ∧ Ieee.near 1 v q := by
  have hq : 0 < q := lt_of_lt_of_le (by unfold DBL_MIN; positivity) hmin
  obtain ⟨v, hv, herr⟩ := to_double_normal q hmin hmax
  obtain ⟨lo, hi⟩ := abs_le.mp herr
  refine ⟨v, hv, hq, ?_, ?_⟩
  · rw [pow_one]
    unfold Ieee.slack
    have hv' : q * (1 - 1 / 2 ^ 53) ≤ v := by linarith
    have : q = q * (1 - 1 / 2 ^ 53) * (2 ^ 53 / (2 ^ 53 - 1)) := by
      have hc : (1 : ℚ) < 2 ^ 53 := by norm_num
      generalize (2 : ℚ) ^ 53 = c at hc
      have h0 : c ≠ 0 := by linarith
      have h1 : c - 1 ≠ 0 := by linarith
      field_simp
    calc q = q * (1 - 1 / 2 ^ 53) * (2 ^ 53 / (2 ^ 53 - 1)) := this
      _ ≤ v * (2 ^ 53 / (2 ^ 53 - 1)) := by gcongr
  · rw [pow_one]
    unfold Ieee.slack
    have hv' : v ≤ q * (1 + 1 / 2 ^ 53) := by linarith
    have : (1 : ℚ) + 1 / 2 ^ 53 ≤ 2 ^ 53 / (2 ^ 53 - 1) := by norm_num
    calc v ≤ q * (1 + 1 / 2 ^ 53) := hv'
      _ ≤ q * (2 ^ 53 / (2 ^ 53 - 1)) := mul_le_mul_of_nonneg_left this hq.le

theorem near_bounds {k : Nat} {x y : ℚ} (h : Ieee.near k x y) (hk : Ieee.slack ^ k ≤ 2) :
    y / 2 ≤ x ∧ x ≤ 2 * y := by
  have hx := near_pos h
  obtain ⟨hy, a1, a2⟩ := h
  constructor
  · have : y ≤ x * 2 := le_trans a1 (by gcongr)
    linarith
  · have : x ≤ y * 2 := le_trans a2 (by gcongr)
    linarith

theorem near_error {k : Nat} {x y ε : ℚ} (h : Ieee.near k x y) (hε : 0 ≤ ε)
    (hk : Ieee.slack ^ k ≤ 1 + ε) : |x - y| ≤ y * ε := by
  have hx := near_pos h
  obtain ⟨hy, a1, a2⟩ := h
  rw [abs_le]
  constructor
  · have h1 : y ≤ x * (1 + ε) := le_trans a1 (by gcongr)
    have h2 : y * (1 - ε) * (1 + ε) ≤ x * (1 + ε) := by
      have : 0 ≤ y * (ε * ε) := mul_nonneg hy.le (mul_nonneg hε hε)
      calc y * (1 - ε) * (1 + ε) = y - y * (ε * ε) := by ring
        _ ≤ y := by linarith
        _ ≤ x * (1 + ε) := h1
    have h3 : y * (1 - ε) ≤ x := le_of_mul_le_mul_right h2 (by linarith)
    linarith
  · have h1 : x ≤ y * (1 + ε) := le_trans a2 (by gcongr)
    linarith

theorem slack_pow_le_two {k : Nat} (hk : k ≤ 9) : Ieee.slack ^ k ≤ 2 := by
  have h9 : Ieee.slack ^ 9 ≤ 2 := by unfold Ieee.slack; norm_num
  exact le_trans (pow_le_pow_right₀ one_le_slack hk) h9

theorem in_range_of_near {k : Nat} {x y lo hi : ℚ} (h : Ieee.near k x y)
    (hk : Ieee.slack ^ k ≤ 2) (hlo : lo ≤ y) (hhi : y ≤ hi)
    (h1 : DBL_MIN ≤ lo / 2) (h2 : 2 * hi ≤ 2 ^ 1023) : DBL_MIN ≤ x ∧ x ≤ 2 ^ 1023 := by
  obtain ⟨b1, b2⟩ := near_bounds h hk
  constructor
  · calc DBL_MIN ≤ lo / 2 := h1
      _ ≤ y / 2 := by gcongr
      _ ≤ x := b1
  · calc x ≤ 2 * y := b2
      _ ≤ 2 * hi := by gcongr
      _ ≤ 2 ^ 1023 := h2

/-- For a size between 1 and `2^31 - 1` and a peak figure between `2^-500` and
`2^500`, the estimate is a finite `double` within the relative error `2^-49` of
`((n^3)/3) / (peak_tflops * 10^12) * 1000`. -/
theorem theoretical_time_ms_accuracy (n : Int) (p : ℚ) (hn1 : 1 ≤ n) (hn2 : n < 2 ^ 31)
    (hp1 : 1 / 2 ^ 500 ≤ p) (hp2 : p ≤ 2 ^ 500) :
    ∃ g : ℚ, Ieee.theoretical_time_ms n (.finite p) = .finite g
      ∧ |g - (((n : ℚ) ^ 3) / 3) / (p * 10 ^ 12) * 1000|
          ≤ ((((n : ℚ) ^ 3) / 3) / (p * 10 ^ 12) * 1000) / 2 ^ 49 := by
  have hN1 : (1 : ℚ) ≤ n := by exact_mod_cast hn1
  have hN2 : (n : ℚ) ≤ 2 ^ 31 := by
    have : n ≤ 2 ^ 31 := hn2.le
    exact_mod_cast this
  have hN0 : (0 : ℚ) < n := by linarith
  have hp0 : 0 < p := lt_of_lt_of_le (by positivity) hp1
  have hmin : DBL_MIN = 1 / 2 ^ 1022 := rfl
  -- the exact intermediate values and their ranges
  have y2lo : (1 : ℚ) ≤ n * n := by nlinarith
  have y2hi : (n : ℚ) * n ≤ 2 ^ 31 * 2 ^ 31 := by gcongr
  have y3lo : (1 : ℚ) ≤ n * n * n := by nlinarith
  have y3hi : (n : ℚ) * n * n ≤ 2 ^ 31 * 2 ^ 31 * 2 ^ 31 := by gcongr
  have y4lo : (1 : ℚ) / 3 ≤ n * n * n / 3 := by gcongr
  have y4hi : (n : ℚ) * n * n / 3 ≤ 2 ^ 31 * 2 ^ 31 * 2 ^ 31 / 3 := by gcongr
  have y5lo : (1 : ℚ) / 2 ^ 500 * 1000000000000 ≤ p * 1000000000000 := by gcongr
  have y5hi : p * 1000000000000 ≤ 2 ^ 500 * 1000000000000 := by gcongr
  have y5pos : 0 < p * 1000000000000 := by positivity
  have y6lo : (1 : ℚ) / 3 / (2 ^ 500 * 1000000000000)
      ≤ n * n * n / 3 / (p * 1000000000000) := by gcongr
  have y6hi : (n : ℚ) * n * n / 3 / (p * 1000000000000)
      ≤ 2 ^ 31 * 2 ^ 31 * 2 ^ 31 / 3 / (1 / 2 ^ 500 * 1000000000000) := by gcongr
  have y7lo : (1 : ℚ) / 3 / (2 ^ 500 * 1000000000000) * 1000
      ≤ n * n * n / 3 / (p * 1000000000000) * 1000 := by gcongr
  have y7hi : (n : ℚ) * n * n / 3 / (p * 1000000000000) * 1000
      ≤ 2 ^ 31 * 2 ^ 31 * 2 ^ 31 / 3 / (1 / 2 ^ 500 * 1000000000000) * 1000 := by gcongr
  -- the seven roundings
  obtain ⟨a, ha, na⟩ := near_round (n : ℚ) (by rw [hmin]; exact le_trans (by norm_num) hN1)
    (le_trans hN2 (by norm_num))
  have na2 := near_mul na na
  obtain ⟨rb1, rb2⟩ := in_range_of_near na2 (slack_pow_le_two (by norm_num)) y2lo y2hi
    (by rw [hmin]; norm_num) (by norm_num)
  obtain ⟨b, hb, nb0⟩ := near_round (a * a) rb1 rb2
  have nb := near_trans na2 nb0
  have nb2 := near_mul nb na
  obtain ⟨rc1, rc2⟩ := in_range_of_near nb2 (slack_pow_le_two (by norm_num)) y3lo y3hi
    (by rw [hmin]; norm_num) (by norm_num)
  obtain ⟨c, hc, nc0⟩ := near_round (b * a) rc1 rc2
  have nc := near_trans nb2 nc0
  have nc2 := near_div nc (near_refl (by norm_num : (0 : ℚ) < 3))
  obtain ⟨rd1, rd2⟩ := in_range_of_near nc2 (slack_pow_le_two (by norm_num)) y4lo y4hi
    (by rw [hmin]; norm_num) (by norm_num)
  obtain ⟨d, hd, nd0⟩ := near_round (c / 3) rd1 rd2
  have nd := near_trans nc2 nd0
  obtain ⟨e, he, ne⟩ := near_round (p * 1000000000000)
    (le_trans (by rw [hmin]; norm_num) y5lo) (le_trans y5hi (by norm_num))
  have nd2 := near_div nd ne
  obtain ⟨rf1, rf2⟩ := in_range_of_near nd2 (slack_pow_le_two (by norm_num)) y6lo y6hi
    (by rw [hmin]; norm_num) (by norm_num)
  obtain ⟨f, hf, nf0⟩ := near_round (d / e) rf1 rf2
  have nf := near_trans nd2 nf0
  have nf2 := near_mul nf (near_refl (by norm_num : (0 : ℚ) < 1000))
  obtain ⟨rg1, rg2⟩ := in_range_of_near nf2 (slack_pow_le_two (by norm_num)) y7lo y7hi
    (by rw [hmin]; norm_num) (by norm_num)
  obtain ⟨g, hg, ng0⟩ := near_round (f * 1000) rg1 rg2
  have ng := near_trans nf2 ng0
  have he0 : e ≠ 0 := (near_pos ne).ne'
  refine ⟨g, ?_, ?_⟩
  · unfold Ieee.theoretical_time_ms Ieee.of_int
    rw [if_neg (by simpa [Ieee.le] using hp0)]
    simp only
    rw [ha, mul_finite, hb, mul_finite, hc, div_finite _ _ (by norm_num), hd, mul_finite, he,
      div_finite _ _ he0, hf, mul_finite, hg]
  · have hE : ((n : ℚ) ^ 3) / 3 / (p * 10 ^ 12) * 1000
        = (n : ℚ) * n * n / 3 / (p * 1000000000000) * 1000 := by
      norm_num
      ring
    rw [hE]
    have hs : Ieee.slack ^ 9 ≤ 1 + 1 / 2 ^ 49 := by
      unfold Ieee.slack
      norm_num
    have ng9 : Ieee.near 9 g ((n : ℚ) * n * n / 3 / (p * 1000000000000) * 1000) := ng
    have := near_error ng9 (by positivity) hs
    rw [mul_one_div] at this
    exact this

theorem slack_inv_pow (k : Nat) : Ieee.slack ^ k * (1 - 1 / 2 ^ 53) ^ k = 1 := by
  rw [← mul_pow]
  have : Ieee.slack * (1 - 1 / 2 ^ 53) = 1 := by unfold Ieee.slack; norm_num
  rw [this, one_pow]

theorem bernoulli_down (k : Nat) : (1 : ℚ) - k / 2 ^ 53 ≤ (1 - 1 / 2 ^ 53) ^ k := by
  induction k with
  | zero => simp
  | succ k ih =>
    have h0 : (0 : ℚ) ≤ 1 - 1 / 2 ^ 53 := by norm_num
    have hk : (0 : ℚ) ≤ k := by positivity
    calc (1 : ℚ) - ((k + 1 : Nat) : ℚ) / 2 ^ 53
        ≤ (1 - k / 2 ^ 53) * (1 - 1 / 2 ^ 53) := by
          push_cast
          have : (0 : ℚ) ≤ k / 2 ^ 53 * (1 / 2 ^ 53) := by positivity
          linarith
      _ ≤ (1 - 1 / 2 ^ 53) ^ k * (1 - 1 / 2 ^ 53) := by gcongr
      _ = (1 - 1 / 2 ^ 53) ^ (k + 1) := (pow_succ _ _).symm

/-- Up to `2^52` roundings change a number by the factor `1 + k / 2^52` at most. -/
theorem slack_pow_le (k : Nat) (hk : k ≤ 2 ^ 52) : Ieee.slack ^ k ≤ 1 + (k : ℚ) / 2 ^ 52 := by
  have hkq : (k : ℚ) ≤ 2 ^ 52 := by exact_mod_cast hk
  have hk0 : (0 : ℚ) ≤ k := by positivity
  have hw : (1 : ℚ) / 2 ≤ 1 - k / 2 ^ 53 := by
    have : (k : ℚ) / 2 ^ 53 ≤ 2 ^ 52 / 2 ^ 53 := by gcongr
    norm_num at this
    linarith
  have ht := bernoulli_down k
  have htpos : (0 : ℚ) < (1 - 1 / 2 ^ 53) ^ k := by positivity
  have hprod : (1 : ℚ) ≤ (1 + (k : ℚ) / 2 ^ 52) * (1 - k / 2 ^ 53) := by
    have e : (1 + (k : ℚ) / 2 ^ 52) * (1 - k / 2 ^ 53)
        = 1 + (k / 2 ^ 53) * (2 * (1 - k / 2 ^ 53) - 1) := by ring
    rw [e]
    have : (0 : ℚ) ≤ (k / 2 ^ 53) * (2 * (1 - k / 2 ^ 53) - 1) :=
      mul_nonneg (by positivity) (by linarith)
    linarith
  have h2 : Ieee.slack ^ k * (1 - 1 / 2 ^ 53) ^ k
      ≤ (1 + (k : ℚ) / 2 ^ 52) * (1 - 1 / 2 ^ 53) ^ k := by
    rw [slack_inv_pow]
    calc (1 : ℚ) ≤ (1 + (k : ℚ) / 2 ^ 52) * (1 - k / 2 ^ 53) := hprod
      _ ≤ (1 + (k : ℚ) / 2 ^ 52) * (1 - 1 / 2 ^ 53) ^ k := by gcongr
  exact le_of_mul_le_mul_right h2 htpos

theorem slack_pow_le_two_of_le (k : Nat) (hk : k ≤ 2 ^ 52) : Ieee.slack ^ k ≤ 2 := by
  have h := slack_pow_le k hk
  have hkq : (k : ℚ) ≤ 2 ^ 52 := by exact_mod_cast hk
  have : (k : ℚ) / 2 ^ 52 ≤ 1 := by rw [div_le_one (by positivity)]; exact hkq
  linarith

theorem sum_nonneg_of_nonneg (xs : List ℚ) (h : ∀ x ∈ xs, 0 ≤ x) : 0 ≤ xs.sum := by
  induction xs with
  | nil => simp
  | cons x rest ih =>
    rw [List.sum_cons]
    have := h x (List.mem_cons_self _ _)
    have := ih (fun y hy => h y (List.mem_cons_of_mem _ hy))
    linarith

theorem sum_between (xs : List ℚ) (lo hi : ℚ) (h : ∀ x ∈ xs, lo ≤ x ∧ x ≤ hi) :
    (xs.length : ℚ) * lo ≤ xs.sum ∧ xs.sum ≤ (xs.length : ℚ) * hi := by
  induction xs with
  | nil => simp
  | cons x rest ih =>
    rw [List.sum_cons, List.length_cons]
    obtain ⟨h1, h2⟩ := h x (List.mem_cons_self _ _)
    obtain ⟨i1, i2⟩ := ih (fun y hy => h y (List.mem_cons_of_mem _ hy))
    push_cast
    constructor <;> linarith

/-- The running sum of `average` on non-negative numbers, as long as it stays in
the normal range: one rounding for each element added. -/
theorem foldl_add_near (xs : List ℚ) :
    ∀ (j : Nat) (s S : ℚ), Ieee.near j s S → j + xs.length ≤ 2 ^ 52 →
      (∀ x ∈ xs, 0 ≤ x) → DBL_MIN ≤ S / 2 → 2 * (S + xs.sum) ≤ 2 ^ 1023 →
      ∃ s' : ℚ, (xs.map Ieee.Double.finite).foldl (fun sum v => Ieee.add sum v) (.finite s)
          = .finite s' ∧ Ieee.near (j + xs.length) s' (S + xs.sum) := by
  induction xs with
  | nil =>
    intro j s S h _ _ _ _
    exact ⟨s, rfl, by simpa using h⟩
  | cons x rest ih =>
    intro j s S h hj hx hlo hhi
    have hx0 := hx x (List.mem_cons_self _ _)
    have hrest := sum_nonneg_of_nonneg rest (fun y hy => hx y (List.mem_cons_of_mem _ hy))
    rw [List.sum_cons] at hhi
    rw [List.length_cons] at hj
    have hq := near_add h hx0
    obtain ⟨r1, r2⟩ := in_range_of_near hq (slack_pow_le_two_of_le j (by omega))
      (show S ≤ S + x by linarith) (show S + x ≤ S + (x + rest.sum) by linarith) hlo hhi
    obtain ⟨v, hv, nv0⟩ := near_round (s + x) r1 r2
    have nv := near_trans hq nv0
    obtain ⟨s', hs', ns'⟩ := ih (j + 1) v (S + x) nv (by omega)
      (fun y hy => hx y (List.mem_cons_of_mem _ hy))
      (le_trans hlo (by linarith)) (by linarith)
    refine ⟨s', ?_, ?_⟩
    · rw [List.map_cons, List.foldl_cons, add_finite, hv, hs']
    · rw [List.sum_cons, List.length_cons, ← add_assoc S, show j + (rest.length + 1)
        = j + 1 + rest.length by omega]
      exact ns'

/-- For a series of at most `2^20` numbers between `2^-1000` and `2^1000`, `average`
returns a finite `double` within the relative error `(length + 2) / 2^52` of the
arithmetic mean. -/
theorem average_accuracy (qs : List ℚ) (hne : qs ≠ []) (hlen : qs.length ≤ 2 ^ 20)
    (hrange : ∀ q ∈ qs, 1 / 2 ^ 1000 ≤ q ∧ q ≤ 2 ^ 1000) :
    ∃ g : ℚ, Ieee.average (qs.map .finite) = .finite g
      ∧ |g - qs.sum / (qs.length : ℚ)|
          ≤ qs.sum / (qs.length : ℚ) * (((qs.length : ℚ) + 2) / 2 ^ 52) := by
  have hmin : DBL_MIN = 1 / 2 ^ 1022 := rfl
  have hpos : ∀ q ∈ qs, 0 ≤ q := fun q hq => le_trans (by positivity) (hrange q hq).1
  have hlen1 : 1 ≤ qs.length := by
    cases qs with
    | nil => exact absurd rfl hne
    | cons _ _ => simp
  have hL1 : (1 : ℚ) ≤ qs.length := by exact_mod_cast hlen1
  have hL2 : (qs.length : ℚ) ≤ 2 ^ 20 := by exact_mod_cast hlen
  have hL0 : (0 : ℚ) < qs.length := by linarith
  obtain ⟨slo, shi⟩ := sum_between qs _ _ hrange
  have shi2 : qs.sum ≤ 2 ^ 20 * 2 ^ 1000 := le_trans shi (by gcongr)
  -- the running sum, from the first element on
  obtain ⟨s, hs, ns⟩ : ∃ s : ℚ,
      (qs.map Ieee.Double.finite).foldl (fun sum v => Ieee.add sum v) (.finite 0) = .finite s
        ∧ Ieee.near qs.length s qs.sum := by
    cases qs with
    | nil => exact absurd rfl hne
    | cons x rest =>
      obtain ⟨x1, x2⟩ := hrange x (List.mem_cons_self _ _)
      obtain ⟨v, hv, nv⟩ := near_round x (le_trans (by rw [hmin]; norm_num) x1)
        (le_trans x2 (by norm_num))
      rw [List.sum_cons] at shi2
      rw [List.length_cons] at hlen
      obtain ⟨s, hs, ns⟩ := foldl_add_near rest 1 v x nv (by omega)
        (fun y hy => hpos y (List.mem_cons_of_mem _ hy))
        (le_trans (by rw [hmin]; norm_num) (show (1 : ℚ) / 2 ^ 1000 / 2 ≤ x / 2 by linarith))
        (le_trans (show 2 * (x + rest.sum) ≤ 2 * (2 ^ 20 * 2 ^ 1000) by linarith) (by norm_num))
      refine ⟨s, ?_, ?_⟩
      · rw [List.map_cons, List.foldl_cons, add_finite, zero_add, hv, hs]
      · rw [List.sum_cons, List.length_cons, Nat.add_comm]
        exact ns
  -- the length and the quotient
  obtain ⟨l, hl, nl⟩ := near_round (qs.length : ℚ) (le_trans (by rw [hmin]; norm_num) hL1)
    (le_trans hL2 (by norm_num))
  have nq := near_div ns nl
  have mlo : (1 : ℚ) / 2 ^ 1000 ≤ qs.sum / qs.length := by
    rw [le_div_iff₀ hL0]
    linarith
  have mhi : qs.sum / (qs.length : ℚ) ≤ 2 ^ 1000 := by
    rw [div_le_iff₀ hL0]
    linarith
  obtain ⟨r1, r2⟩ := in_range_of_near nq (slack_pow_le_two_of_le _ (by omega)) mlo mhi
    (by rw [hmin]; norm_num) (by norm_num)
  obtain ⟨g, hg, ng0⟩ := near_round (s / l) r1 r2
  have ng := near_trans nq ng0
  have hl0 : l ≠ 0 := (near_pos nl).ne'
  refine ⟨g, ?_, ?_⟩
  · unfold Ieee.average Ieee.of_size
    rw [if_neg (by simpa using hne), hs, List.length_map, hl, div_finite _ _ hl0, hg]
  · have hk := slack_pow_le (qs.length + 1 + 1) (by omega)
    have hk' : Ieee.slack ^ (qs.length + 1 + 1) ≤ 1 + ((qs.length : ℚ) + 2) / 2 ^ 52 := by
      have e : (((qs.length + 1 + 1 : Nat) : ℚ)) = (qs.length : ℚ) + 2 := by push_cast; ring
      rw [e] at hk
      exact hk
    exact near_error ng (by positivity) hk'

/-- The running sum of `average` is the exact sum as long as every running sum is
a value of type `double`. -/
theorem foldl_add_exact (qs : List ℚ) :
    ∀ init : ℚ, (∀ k, k ≤ qs.length → Ieee.representable (init + (qs.take k).sum)) →
      (qs.map Ieee.Double.finite).foldl (fun sum v => Ieee.add sum v) (.finite init)
        = .finite (init + qs.sum) := by
  induction qs with
  | nil => intro init _; simp
  | cons q rest ih =>
    intro init h
    have h1 : Ieee.to_double (init + q) = .finite (init + q) := by
      have := h 1 (by simp)
      simpa using this
    rw [List.map_cons, List.foldl_cons, add_finite, h1, ih (init + q), List.sum_cons, add_assoc]
    intro k hk
    have := h (k + 1) (by simpa using hk)
    simpa [add_assoc] using this

/-- The arithmetic mean, exactly: for a non-empty series whose running sums (taken
from the left), whose length and whose arithmetic mean are all values of type
`double`, `average` returns the sum of the elements divided by the length, which
is also what the exact model of `main` returns. -/
theorem average_is_mean_when_exact (qs : List ℚ) (hne : qs ≠ [])
    (hsums : ∀ k, k ≤ qs.length → Ieee.representable ((qs.take k).sum))
    (hlen : Ieee.representable (qs.length : ℚ))
    (hmean : Ieee.representable (qs.sum / (qs.length : ℚ))) :
    Ieee.average (qs.map .finite) = .finite (qs.sum / (qs.length : ℚ))
    ∧ Ieee.average (qs.map .finite) = .finite (average qs) := by
  have hlen0 : (qs.length : ℚ) ≠ 0 := by
    have : qs.length ≠ 0 := fun h => hne (List.length_eq_zero.mp h)
    exact_mod_cast this
  have hfold := foldl_add_exact qs 0 (by intro k hk; simpa using hsums k hk)
  have key : Ieee.average (qs.map .finite) = .finite (qs.sum / (qs.length : ℚ)) := by
    unfold Ieee.average Ieee.of_size
    rw [if_neg (by simpa using hne), hfold, List.length_map, hlen, div_finite _ _ hlen0,
      zero_add, hmean]
  refine ⟨key, ?_⟩
  rw [key]
  unfold average
  rw [if_neg (by simpa using hne), foldl_add_eq_sum, zero_add]

/-- C5 as amended. In binary64 `average` returns -1 for the empty series, without
dividing.  For a non-empty series: when the running sums (taken from the left),
the length and the arithmetic mean are all values of type `double`, it returns the
sum of the elements divided by the length; and when the series has at most `2^20`
elements, each between `2^-1000` and `2^1000`, it returns a finite `double` within
the relative error `(length + 2) / 2^52` of the sum of the elements divided by the
length. -/
theorem average_in_binary64 (qs : List ℚ) (hne : qs ≠ []) :
    Ieee.average [] = .finite (-1)
    ∧ ((∀ k, k ≤ qs.length → Ieee.representable ((qs.take k).sum)) →
        Ieee.representable (qs.length : ℚ) →
        Ieee.representable (qs.sum / (qs.length : ℚ)) →
        Ieee.average (qs.map .finite) = .finite (qs.sum / (qs.length : ℚ)))
    ∧ (qs.length ≤ 2 ^ 20 → (∀ q ∈ qs, 1 / 2 ^ 1000 ≤ q ∧ q ≤ 2 ^ 1000) →
        ∃ g : ℚ, Ieee.average (qs.map .finite) = .finite g
          ∧ |g - qs.sum / (qs.length : ℚ)|
              ≤ qs.sum / (qs.length : ℚ) * (((qs.length : ℚ) + 2) / 2 ^ 52)) :=
  ⟨rfl, fun hsums hlen hmean => (average_is_mean_when_exact qs hne hsums hlen hmean).1,
    fun hlen hrange => average_accuracy qs hne hlen hrange⟩

/-- The series 1, 2, 3: every running sum (0, 1, 3, 6), the length 3 and the mean 2
are values of type `double`, and `average` returns 2.  The series `2^53, 1, 1`:
`average` returns a finite `double` within the relative error `5 / 2^52` of the
mean. -/
theorem average_in_binary64_witness :
    Ieee.average [.finite 1, .finite 2, .finite 3] = .finite (([1, 2, 3] : List ℚ).sum / 3)
    ∧ ∃ g : ℚ, Ieee.average [.finite (2 ^ 53), .finite 1, .finite 1] = .finite g
        ∧ |g - ([2 ^ 53, 1, 1] : List ℚ).sum / 3|
            ≤ ([2 ^ 53, 1, 1] : List ℚ).sum / 3 * ((3 + 2) / 2 ^ 52) :=
  ⟨(average_in_binary64 [1, 2, 3] (by simp)).2.1 (by decide!) (by decide!) (by decide!),
   (average_in_binary64 [2 ^ 53, 1, 1] (by simp)).2.2 (by decide) (by decide!)⟩

/-- C5 as stated fails in binary64.  The series `2^53, 1, 1` of values of type
`double`: each addition of 1 rounds back to `2^53`, and `average` returns
3002399751580330.5, which is not the arithmetic mean `(2^53 + 2) / 3`.  The series
of twice the largest finite `double`: the sum overflows and `average` returns
positive infinity, although the mean is a value of type `double`. -/
theorem average_rounds_and_overflows :
    (Ieee.representable (2 ^ 53) ∧ Ieee.representable 1
      ∧ Ieee.average [.finite (2 ^ 53), .finite 1, .finite 1]
          = .finite (6004799503160661 / 2)
      ∧ Ieee.average [.finite (2 ^ 53), .finite 1, .finite 1]
          ≠ .finite (([2 ^ 53, 1, 1] : List ℚ).sum / 3))
    ∧ (Ieee.representable DBL_MAX
      ∧ Ieee.average [.finite DBL_MAX, .finite DBL_MAX] = .inf false
      ∧ Ieee.average [.finite DBL_MAX, .finite DBL_MAX]
          ≠ .finite (([DBL_MAX, DBL_MAX] : List ℚ).sum / 2)) := by
  decide!

/-- C6 as amended. In binary64 the estimate is exactly -1 when `peak_tflops <= 0.0`
holds, which it does for no NaN; for a NaN peak figure the estimate is NaN; for a
positive finite peak figure it is `((n^3)/3) / (peak_tflops * 10^12) * 1000`
whenever the seven results the program computes on the way (the conversion of
`n`, the two products, the third, the scaled peak, the quotient and the estimate)
are values of type `double`; for a size between 1 and `2^31 - 1` and a peak figure
between `2^-500` and `2^500` it is a finite `double` within the relative error
`2^-49` of that number.  For `n = 100` and the peak figure 10 it is the `double`
nearest to `((100^3)/3)/(10*10^12)*1000`. -/
theorem theoretical_time_ms_binary64 (n : Int) (peak : Ieee.Double) :
    (Ieee.le peak (.finite 0) = true → Ieee.theoretical_time_ms n peak = .finite (-1))
    ∧ (peak = .nan → Ieee.theoretical_time_ms n peak = .nan)
    ∧ (∀ p : ℚ, peak = .finite p → 0 < p →
        Ieee.representable (n : ℚ) →
        Ieee.representable ((n : ℚ) * n) →
        Ieee.representable ((n : ℚ) * n * n) →
        Ieee.representable ((n : ℚ) * n * n / 3) →
        Ieee.representable (p * 10 ^ 12) →
        Ieee.representable ((n : ℚ) * n * n / 3 / (p * 10 ^ 12)) →
        Ieee.representable ((n : ℚ) * n * n / 3 / (p * 10 ^ 12) * 1000) →
        Ieee.theoretical_time_ms n peak
          = .finite ((((n : ℚ) ^ 3) / 3) / (p * 10 ^ 12) * 1000))
    ∧ (∀ p : ℚ, peak = .finite p → 1 ≤ n → n < 2 ^ 31 → 1 / 2 ^ 500 ≤ p → p ≤ 2 ^ 500 →
        ∃ g : ℚ, Ieee.theoretical_time_ms n peak = .finite g
          ∧ |g - (((n : ℚ) ^ 3) / 3) / (p * 10 ^ 12) * 1000|
              ≤ ((((n : ℚ) ^ 3) / 3) / (p * 10 ^ 12) * 1000) / 2 ^ 49)
    ∧ Ieee.theoretical_time_ms 100 (.finite 10)
        = Ieee.to_double (((100 : ℚ) ^ 3 / 3) / (10 * 10 ^ 12) * 1000) := by
  refine ⟨?_, ?_, ?_, ?_, by decide!⟩
  · intro h
    unfold Ieee.theoretical_time_ms
    rw [if_pos h]
  · intro h
    subst h
    unfold Ieee.theoretical_time_ms
    rw [if_neg (by simp [Ieee.le])]
    simp only [Ieee.mul, div_nan]
  · intro p hp hpos h1 h2 h3 h4 h5 h6 h7
    subst hp
    have hscale : p * 1000000000000 = p * 10 ^ 12 := by norm_num
    have hne : p * 10 ^ 12 ≠ 0 := by positivity
    unfold Ieee.theoretical_time_ms Ieee.of_int
    rw [if_neg (by simpa [Ieee.le] using hpos)]
    simp only
    rw [h1, mul_finite, h2, mul_finite, h3, div_finite _ _ (by norm_num), h4, mul_finite,
      hscale, h5, div_finite _ _ hne, h6, mul_finite, h7]
    congr 1
    ring
  · intro p hp hn1 hn2 hp1 hp2
    subst hp
    exact theoretical_time_ms_accuracy n p hn1 hn2 hp1 hp2

/-- The size 1875 with the peak figure 9: every intermediate result is a value of
type `double` and the estimate is `125/512` ms; the peak figure 0 gives -1; the
size 100 with the peak figure 10 gives a finite `double` within the relative error
`2^-49` of `((100^3)/3)/(10*10^12)*1000`. -/
theorem theoretical_time_ms_binary64_witness :
    Ieee.theoretical_time_ms 1875 (.finite 9)
        = .finite (((((1875 : Int) : ℚ) ^ 3) / 3) / (9 * 10 ^ 12) * 1000)
    ∧ Ieee.theoretical_time_ms 100 (.finite 0) = .finite (-1)
    ∧ ∃ g : ℚ, Ieee.theoretical_time_ms 100 (.finite 10) = .finite g
        ∧ |g - ((((100 : Int) : ℚ) ^ 3) / 3) / (10 * 10 ^ 12) * 1000|
            ≤ (((((100 : Int) : ℚ) ^ 3) / 3) / (10 * 10 ^ 12) * 1000) / 2 ^ 49 :=
  ⟨(theoretical_time_ms_binary64 1875 (.finite 9)).2.2.1 9 rfl (by norm_num)
      (by decide!) (by decide!) (by decide!) (by decide!) (by decide!) (by decide!) (by decide!),
   (theoretical_time_ms_binary64 100 (.finite 0)).1 (by decide!),
   (theoretical_time_ms_binary64 100 (.finite 10)).2.2.2.1 10 rfl (by norm_num) (by norm_num)
      (by norm_num) (by norm_num)⟩

/-- C6 as stated fails in binary64.  A NaN peak figure (`--peak-tflops nan`) is not
strictly positive, yet the guard `peak_tflops <= 0.0` is false for it and the
estimate is NaN, not -1.  For `n = 100` and the peak figure 10 the estimate is the
`double` nearest to `((100^3)/3)/(10*10^12)*1000`, which is not that number. -/
theorem theoretical_time_ms_nan_and_rounding :
    (Ieee.lt (.finite 0) .nan = false
      ∧ Ieee.theoretical_time_ms 100 .nan = .nan
      ∧ Ieee.theoretical_time_ms 100 .nan ≠ .finite (-1))
    ∧ (Ieee.theoretical_time_ms 100 (.finite 10)
          = .finite (2459565876494607 / 73786976294838206464)
      ∧ Ieee.theoretical_time_ms 100 (.finite 10)
          ≠ .finite (((100 : ℚ) ^ 3 / 3) / (10 * 10 ^ 12) * 1000)
      ∧ Ieee.theoretical_time_ms 100 (.finite 10)
          = Ieee.to_double (((100 : ℚ) ^ 3 / 3) / (10 * 10 ^ 12) * 1000)) := by
  decide!

/-! ## Theorems: the timing extractor and the process runner -/

theorem decimal_value_nonneg (text : List Char) : 0 ≤ decimal_value text := by
  unfold decimal_value
  positivity

/-- The range error of `strtod` at the edges of the range of `double`: none at
zero, at the least subnormal number, at the least magnitude that rounds to
`DBL_MIN` and at the largest finite number; one at half the least subnormal
number, just below the least magnitude that rounds to `DBL_MIN` (also where the
value returned is `DBL_MIN`), and at the least magnitude that rounds to infinity. -/
theorem out_of_double_range_at_the_edges :
    out_of_double_range 0 = false
    ∧ out_of_double_range (1 / 2 ^ 1074) = false
    ∧ out_of_double_range (1 / 2 ^ 1075) = true
    ∧ out_of_double_range DBL_TINY = false
    ∧ out_of_double_range (DBL_MIN - 1 / 2 ^ 1075) = true
    ∧ Ieee.to_double (DBL_MIN - 1 / 2 ^ 1075) = .finite DBL_MIN
    ∧ out_of_double_range DBL_MAX = false
    ∧ out_of_double_range DBL_OVERFLOW = true := by
  decide!

/-- Where the captured number is within the range of `double`, the extractor returns
it; where the expression matches nowhere, it returns -1. -/
theorem parse_time_ms_in_range (text : String) :
    (∀ m, regex_search text.data = some m → out_of_double_range (decimal_value m) = false →
      parse_time_ms_from_json text = .ok (decimal_value m))
    ∧ (regex_search text.data = none → parse_time_ms_from_json text = .ok (-1)) := by
  constructor
  · intro m hm hr
    simp [parse_time_ms_from_json, hm, stod, hr]
  · intro hm
    simp [parse_time_ms_from_json, hm]

/-- C7 (the code fails the claim). On a standard-output text whose `time_ms` field
is `10^309`, a well-formed integer beyond the range of `double`, the extraction
raises the `std::out_of_range` of `std::stod`: `run_command` ends with that
exception instead of returning a result whose `time_ms` is the number or the
measured time, and the exception leaves `main`. -/
theorem extraction_raises_on_huge_time_ms :
    parse_time_ms_from_json huge_time_text = .error "stod"
    ∧ (run_command ((plain_host 0 huge_time_text).spawn 0) "true" []).1 = .raised "stod"
    ∧ (main (plain_host 0 huge_time_text) { n := 4 } empty_world).exit = .uncaught "stod" := by
  refine ⟨?_, ?_, ?_⟩ <;> decide!

/-- On the paths where `run_command` gets past `wait4` (the child ran, whatever its
exit status), the two capture files it created are removed again. -/
theorem run_command_cleans_after_wait (host : String → Spawn) (command : String)
    (temps : List String) (o e : String) (child : ChildRun)
    (ho : (host command).stdout_tmp = some o) (he : (host command).stderr_tmp = some e)
    (hw : (host command).wait = some child) (hfo : o ∉ temps) (hfe : e ∉ temps) :
    (run_command host command temps).2 = temps := by
  have herase : ((temps ++ [o] ++ [e]).erase o).erase e = temps := by
    rw [List.append_assoc, List.erase_append_right _ hfo]
    simp [List.erase_append_right _ hfe]
  unfold run_command
  simp only [ho, he, hw, mkstemp, unlink]
  split <;> exact herase

/-- C10 (the code fails the claim). When the second `mkstemp` fails, `run_command`
raises its error with the first capture file still in existence; when `wait4`
fails, it raises with both capture files still in existence. -/
theorem run_command_leaves_capture_files :
    run_command (fun _ => { stdout_tmp := some "/tmp/chol_stdoutAAAAAA", stderr_tmp := none })
        "true" []
      = (.raised "Failed to create temp files.", ["/tmp/chol_stdoutAAAAAA"])
    ∧ run_command (fun _ => { stdout_tmp := some "/tmp/chol_stdoutAAAAAA",
                              stderr_tmp := some "/tmp/chol_stderrAAAAAA", wait := none })
        "true" []
      = (.raised "wait4 failed.", ["/tmp/chol_stdoutAAAAAA", "/tmp/chol_stderrAAAAAA"]) := by
  constructor <;> decide

/-! ## Theorems: the run loop -/

theorem zero_exits_snoc_raised {trace : List (String × Outcome)} (h : zero_exits trace)
    (command what : String) : zero_exits (trace ++ [(command, Outcome.raised what)]) := by
  intro c r hm
  rcases List.mem_append.mp hm with hm | hm
  · exact h c r hm
  · simp at hm

theorem zero_exits_snoc_returned {trace : List (String × Outcome)} (h : zero_exits trace)
    (command : String) (outcome : CommandResult) (h0 : outcome.returncode = 0) :
    zero_exits (trace ++ [(command, Outcome.returned outcome)]) := by
  intro c r hm
  rcases List.mem_append.mp hm with hm | hm
  · exact h c r hm
  · simp only [List.mem_singleton, Prod.mk.injEq, Outcome.returned.injEq] at hm
    rw [hm.2]
    exact h0

theorem run_trials_clean (host : Host) (args : Args) (templ : String) :
    ∀ (k : Nat) (ts ms : List ℚ) (st : Progress), zero_exits st.trace →
      (run_trials host args templ k ts ms st).clean_or_failed := by
  intro k
  induction k with
  | zero => intro ts ms st h; exact h
  | succ k ih =>
    intro ts ms st h
    simp only [run_trials]
    split
    · rename_i what hw
      simp only [Loop.clean_or_failed, hw]
      exact zero_exits_snoc_raised h _ _
    · rename_i outcome ho
      split
      · trivial
      · rename_i hrc
        apply ih
        simp only [ho]
        exact zero_exits_snoc_returned h _ _ (by simpa using hrc)

theorem run_methods_clean (host : Host) (args : Args) :
    ∀ (ms : List (String × String)) (results : List Entry) (st : Progress),
      zero_exits st.trace → (run_methods host args ms results st).clean_or_failed := by
  intro ms
  induction ms with
  | nil => intro results st h; exact h
  | cons method rest ih =>
    intro results st h
    have ht := run_trials_clean host args method.2 args.runs.toNat [] [] st h
    simp only [run_methods]
    split
    · rename_i series st1 heq
      rw [heq] at ht
      exact ih _ _ ht
    · trivial
    · rename_i what st1 heq
      rw [heq] at ht
      exact ht

theorem write_results_trace (host : Host) (args : Args) (results : List Entry) (w : World)
    (trace : List (String × Outcome)) :
    (write_results host args results w trace).trace = trace := by
  unfold write_results
  split
  · rfl
  · simp only
    split <;> rfl

/-- For every valid configuration (`n > 0`) and every conduct of the host, if for some
executed trial `run_command` returned a result with a non-zero exit code, `main`
returns exit status 2, opens neither output file, leaves every file as it was and
hands no record to the writer.  A trial whose child exited with a non-zero status
but for which `run_command` raised is not among these. -/
theorem nonzero_exit_aborts (host : Host) (args : Args) (w : World) (hn : 0 < args.n)
    (hfail : ∃ c r, (c, Outcome.returned r) ∈ (main host args w).trace ∧ r.returncode ≠ 0) :
    (main host args w).exit = .status 2
    ∧ (main host args w).opened = []
    ∧ (main host args w).world.logs = w.logs
    ∧ (main host args w).records = [] := by
  obtain ⟨c, r, hmem, hrc⟩ := hfail
  have hclean := run_methods_clean host args (methods args) []
    { calls := 0, temps := w.temps, trace := [] } (by intro c r hm; simp at hm)
  revert hmem
  unfold main parse_args
  rw [if_neg (not_le.mpr hn)]
  simp only
  split
  · rename_i what st heq
    rw [heq] at hclean
    intro hmem
    exact absurd (hclean c r hmem) hrc
  · intro _
    exact ⟨rfl, rfl, rfl, rfl⟩
  · rename_i results st heq
    rw [heq] at hclean
    intro hmem
    rw [write_results_trace] at hmem
    exact absurd (hclean c r hmem) hrc

/-- With two runs per method, a first trial that succeeds and a second that exits
with status 1: exit status 2, no output file opened, no file changed. -/
theorem nonzero_exit_aborts_witness :
    (main late_failure_host { n := 4, runs := 2 } empty_world).exit = .status 2
    ∧ (main late_failure_host { n := 4, runs := 2 } empty_world).opened = []
    ∧ (main late_failure_host { n := 4, runs := 2 } empty_world).world.logs = empty_world.logs
    ∧ (main late_failure_host { n := 4, runs := 2 } empty_world).records = [] :=
  nonzero_exit_aborts late_failure_host { n := 4, runs := 2 } empty_world (by decide)
    ⟨"./build/hip_cholesky --n 4 --iters 3",
     { returncode := 1, time_ms := 12, memory_kb := 1000 }, by decide!, by decide⟩

/-- C8 (the code fails the claim). A valid configuration (`n = 4`) whose first child
exits with status 1 after printing a `time_ms` field with the well-formed integer
`10^309`: `run_command` parses the captured output (line 151) before `main` tests
the exit code (line 236), `std::stod` raises its range error, and the exception
leaves `main`, which therefore does not return exit status 2.  The defect is the
one of C7: the range error of `std::stod` is not handled. -/
theorem nonzero_exit_with_huge_time_ends_uncaught :
    (0 : Int) < ({ n := 4 } : Args).n
    ∧ (((plain_host 1 huge_time_text).spawn 0 "./build/hip_cholesky --n 4 --iters 3").wait.map
        (fun child => child.exited)) = some (some 1)
    ∧ (main (plain_host 1 huge_time_text) { n := 4 } empty_world).trace
        = [("./build/hip_cholesky --n 4 --iters 3", .raised "stod")]
    ∧ (main (plain_host 1 huge_time_text) { n := 4 } empty_world).exit = .uncaught "stod"
    ∧ (main (plain_host 1 huge_time_text) { n := 4 } empty_world).exit ≠ .status 2 := by
  refine ⟨?_, ?_, ?_, ?_, ?_⟩ <;> decide!

/-- The records the run loop hands over carry the method names in the order of the
methods and no comparison yet. -/
theorem run_methods_done (host : Host) (args : Args) :
    ∀ (ms : List (String × String)) (results : List Entry) (st : Progress)
      (results1 : List Entry) (st1 : Progress),
      run_methods host args ms results st = .done results1 st1 →
      results1.map (fun e => e.method) = results.map (fun e => e.method) ++ ms.map Prod.fst
      ∧ ((∀ r ∈ results, r.perf_diff_valid = false) →
          ∀ r ∈ results1, r.perf_diff_valid = false) := by
  intro ms
  induction ms with
  | nil =>
    intro results st results1 st1 h
    simp only [run_methods, Loop.done.injEq] at h
    obtain ⟨rfl, -⟩ := h
    exact ⟨by simp, fun hf => hf⟩
  | cons method rest ih =>
    intro results st results1 st1 h
    simp only [run_methods] at h
    split at h
    · obtain ⟨h1, h2⟩ := ih _ _ _ _ h
      refine ⟨by simpa using h1, fun hf => h2 ?_⟩
      intro r hr
      rcases List.mem_append.mp hr with hr | hr
      · exact hf r hr
      · rw [List.mem_singleton.mp hr]
    · exact absurd h (by simp)
    · exact absurd h (by simp)

/-- The list `main` hands to the comparative analysis: one record per method, named
`hipsolver`, `rocsolver`, `scalapack` in that order, none with a comparison. -/
theorem results_of_main (host : Host) (args : Args) (st : Progress)
    (results : List Entry) (st1 : Progress)
    (h : run_methods host args (methods args) [] st = .done results st1) :
    results.map (fun e => e.method) = ["hipsolver", "rocsolver", "scalapack"]
    ∧ (results.map (fun e => e.method)).Nodup
    ∧ ∀ r ∈ results, r.perf_diff_valid = false := by
  obtain ⟨h1, h2⟩ := run_methods_done host args _ _ _ _ _ h
  have h3 : results.map (fun e => e.method) = ["hipsolver", "rocsolver", "scalapack"] := by
    simpa [methods] using h1
  refine ⟨h3, ?_, h2 (by simp)⟩
  rw [h3]
  decide

theorem write_results_records (host : Host) (args : Args) (results : List Entry) (w : World)
    (trace : List (String × Outcome)) :
    (write_results host args results w trace).records = results := by
  unfold write_results
  split
  · rfl
  · simp only
    split <;> rfl

/-- The records `main` holds at its end: none, or the analysed list of the records
its run loop completed. -/
theorem main_records (host : Host) (args : Args) (w : World) :
    (main host args w).records = []
    ∨ ∃ (results : List Entry) (st st1 : Progress),
        run_methods host args (methods args) [] st = .done results st1
        ∧ (main host args w).records = analysis results := by
  unfold main parse_args
  by_cases hn : args.n ≤ 0
  · rw [if_pos hn]
    exact Or.inl rfl
  · rw [if_neg hn]
    simp only
    split
    · exact Or.inl rfl
    · exact Or.inl rfl
    · rename_i results st1 heq
      exact Or.inr ⟨results, _, st1, heq, write_results_records _ _ _ _ _⟩

/-- C3. In the comparative analysis step of `main`: whenever the list of records
contains a record `b` named `scalapack` whose mean time is strictly positive, every
record `e` whose method is not `scalapack` ends with `perf_diff_valid = true` and
`performance_difference_pct = ((e.time_ms - b.time_ms) / b.time_ms) * 100`. -/
theorem analysis_compares_others (host : Host) (args : Args) (w : World) (b e : Entry)
    (hb : b ∈ (main host args w).records) (hname : b.method = "scalapack")
    (hpos : 0 < b.time_ms)
    (he : e ∈ (main host args w).records) (hother : e.method ≠ "scalapack") :
    e.perf_diff_valid = true
    ∧ e.performance_difference_pct = ((e.time_ms - b.time_ms) / b.time_ms) * 100 := by
  rcases main_records host args w with hnil | ⟨results, st, st1, hrun, hrec⟩
  · rw [hnil] at hb
    exact absurd hb (List.not_mem_nil _)
  · obtain ⟨-, hnodup, -⟩ := results_of_main host args st results st1 hrun
    rw [hrec] at hb he
    have hb0 : b ∈ results := (mem_analysis_scalapack results b hname).mp hb
    rw [analysis_of_distinct_names results b hnodup hb0 hname hpos] at he
    obtain ⟨x, -, rfl⟩ := List.mem_map.mp he
    by_cases hx : x.method = "scalapack"
    · rw [if_pos hx] at hother
      exact absurd hx hother
    · rw [if_neg hx]
      exact ⟨rfl, rfl⟩

/-- With self-reported times of 8.0 ms for the first two methods and 10.0 ms for
`scalapack`, `main` ends with the comparisons -20, -20 and none; the record of
`hipsolver` is valid with a comparison of exactly -20. -/
theorem analysis_compares_others_witness :
    (main staged_host { n := 4 } empty_world).records.map
        (fun r => (r.method, r.time_ms, r.performance_difference_pct, r.perf_diff_valid))
      = [("hipsolver", 8, -20, true), ("rocsolver", 8, -20, true), ("scalapack", 10, 0, false)]
    ∧ staged_hipsolver.perf_diff_valid = true
    ∧ staged_hipsolver.performance_difference_pct
        = ((staged_hipsolver.time_ms - staged_scalapack.time_ms) / staged_scalapack.time_ms)
            * 100 :=
  ⟨by decide!,
   analysis_compares_others staged_host { n := 4 } empty_world staged_scalapack
     staged_hipsolver (by decide!) rfl (by decide!) (by decide!) (by decide)⟩

/-- C4. After the comparative analysis step of `main`, a record is marked valid only
if its own method is not `scalapack` and the list holds a record named `scalapack`
whose mean time is strictly positive: without a baseline, or with a baseline whose
mean time is not positive, no record is valid, and the baseline never is. -/
theorem valid_only_against_positive_baseline (host : Host) (args : Args) (w : World)
    (e : Entry) (he : e ∈ (main host args w).records) (hvalid : e.perf_diff_valid = true) :
    e.method ≠ "scalapack"
    ∧ ∃ b, b ∈ (main host args w).records ∧ b.method = "scalapack" ∧ 0 < b.time_ms := by
  rcases main_records host args w with hnil | ⟨results, st, st1, hrun, hrec⟩
  · rw [hnil] at he
    exact absurd he (List.not_mem_nil _)
  · obtain ⟨-, -, hfresh⟩ := results_of_main host args st results st1 hrun
    rw [hrec] at he ⊢
    obtain ⟨h1, b, -, hb, hname, hpos⟩ := valid_after_analysis results hfresh e he hvalid
    exact ⟨h1, b, (mem_analysis_scalapack results b hname).mpr hb, hname, hpos⟩

/-- The valid record of `hipsolver` in the run with times 8.0, 8.0 and 10.0 ms is not
the baseline, and a baseline with a positive mean time is among the records. -/
theorem valid_only_against_positive_baseline_witness :
    staged_hipsolver.method ≠ "scalapack"
    ∧ ∃ b, b ∈ (main staged_host { n := 4 } empty_world).records
        ∧ b.method = "scalapack" ∧ 0 < b.time_ms :=
  valid_only_against_positive_baseline staged_host { n := 4 } empty_world staged_hipsolver
    (by decide!) rfl

/-! ## Theorems: the tabular log -/

theorem open_append_other (logs : String → Option String) {p q : String} (h : p ≠ q) :
    open_append logs p q = logs q := by
  unfold open_append
  split
  · rfl
  · exact Function.update_noteq (Ne.symm h) _ _

theorem open_append_self (logs : String → Option String) (p : String) :
    open_append logs p p = some ((logs p).getD "") := by
  unfold open_append file_exists
  cases h : logs p with
  | none => simp [h]
  | some c => simp [h]

theorem write_append_other (logs : String → Option String) {p q : String} (text : String)
    (h : p ≠ q) : write_append logs p text q = logs q := by
  unfold write_append
  cases logs p with
  | none => rfl
  | some c => exact Function.update_noteq (Ne.symm h) _ _

theorem write_append_self (logs : String → Option String) (p text : String) :
    write_append logs p text p = (logs p).map (fun content => content ++ text) := by
  unfold write_append
  cases h : logs p with
  | none => simp [h]
  | some c => simp

/-- A successful invocation reached the writer and both streams were opened. -/
theorem main_success (host : Host) (args : Args) (w : World)
    (h : (main host args w).exit = .status 0) :
    ∃ (results : List Entry) (st : Progress),
      main host args w
        = write_results host args results { w with temps := st.temps } st.trace := by
  revert h
  unfold main parse_args
  by_cases hn : args.n ≤ 0
  · rw [if_pos hn]
    intro h
    exact absurd h (by simp)
  · rw [if_neg hn]
    simp only
    split
    · intro h; exact absurd h (by simp)
    · intro h; exact absurd h (by simp)
    · rename_i results st _
      intro _
      exact ⟨analysis results, st, rfl⟩

/-- The tabular log after the writer succeeded, for distinct output paths: the old
content, the header row if there was no file, the data rows. -/
theorem write_results_csv (host : Host) (args : Args) (results : List Entry) (w : World)
    (trace : List (String × Outcome)) (hpaths : args.out_jsonl ≠ args.out_csv)
    (h : (write_results host args results w trace).exit = .status 0) :
    (write_results host args results w trace).world.logs args.out_csv
        = (match w.logs args.out_csv with
           | some old => some (old ++ csv_rows host results)
           | none => some (csv_header ++ csv_rows host results))
    ∧ (write_results host args results w trace).records = results := by
  revert h
  unfold write_results
  split
  · intro h; exact absurd h (by simp)
  · simp only
    split
    · intro h; exact absurd h (by simp)
    · intro _
      refine ⟨?_, rfl⟩
      simp only
      rw [write_append_other _ _ hpaths, write_append_self, open_append_self,
        open_append_other _ hpaths]
      unfold csv_text file_exists
      rw [open_append_other _ hpaths]
      cases hold : w.logs args.out_csv with
      | none => simp
      | some old => simp

/-- The tabular log after one successful invocation with distinct output paths. -/
theorem main_csv (host : Host) (args : Args) (w : World)
    (hpaths : args.out_jsonl ≠ args.out_csv) (h : (main host args w).exit = .status 0) :
    (main host args w).world.logs args.out_csv
      = (match w.logs args.out_csv with
         | some old => some (old ++ csv_rows host (main host args w).records)
         | none => some (csv_header ++ csv_rows host (main host args w).records)) := by
  obtain ⟨results, st, heq⟩ := main_success host args w h
  rw [heq] at h ⊢
  obtain ⟨h1, h2⟩ := write_results_csv host args results _ st.trace hpaths h
  rw [h1, h2]

theorem csv_appended_by_runs (path : String) :
    ∀ (jobs : List (Host × Args)) (w : World) (old : String),
      (∀ job ∈ jobs, job.2.out_csv = path ∧ job.2.out_jsonl ≠ path) →
      all_succeed jobs w → w.logs path = some old →
      (run_all jobs w).logs path = some (old ++ rows_written jobs w) := by
  intro jobs
  induction jobs with
  | nil =>
    intro w old _ _ hold
    simp [run_all, rows_written, hold]
  | cons job rest ih =>
    intro w old hjobs hok hold
    obtain ⟨hcsv, hne⟩ := hjobs job (List.mem_cons_self _ _)
    have hmain := main_csv job.1 job.2 w (by rw [hcsv]; exact hne) hok.1
    rw [hcsv, hold] at hmain
    simp only at hmain
    rw [run_all, ih _ _ (fun j hj => hjobs j (List.mem_cons_of_mem _ hj)) hok.2 hmain,
      rows_written, String.append_assoc]

/-- In the file system `main` assumes (a file is its path text, every file can be
read, every write is stored).  For every sequence of successful invocations that
write the tabular log at `path` and the line-delimited log at another path: if the
file was absent at the start (and the sequence is not empty) the file is the header
row followed by the data rows of the invocations in order; if the file existed, the
data rows are appended to its content and no header is written. -/
theorem csv_header_written_once (path : String) (jobs : List (Host × Args)) (w : World)
    (hjobs : ∀ job ∈ jobs, job.2.out_csv = path ∧ job.2.out_jsonl ≠ path)
    (hok : all_succeed jobs w) :
    (run_all jobs w).logs path
      = (match w.logs path with
         | some old => some (old ++ rows_written jobs w)
         | none => if jobs.isEmpty then none else some (csv_header ++ rows_written jobs w)) := by
  cases hold : w.logs path with
  | some old => exact csv_appended_by_runs path jobs w old hjobs hok hold
  | none =>
    cases jobs with
    | nil => simpa [run_all] using hold
    | cons job rest =>
      obtain ⟨hcsv, hne⟩ := hjobs job (List.mem_cons_self _ _)
      have hmain := main_csv job.1 job.2 w (by rw [hcsv]; exact hne) hok.1
      rw [hcsv, hold] at hmain
      simp only at hmain
      rw [run_all,
        csv_appended_by_runs path rest _ _ (fun j hj => hjobs j (List.mem_cons_of_mem _ hj))
          hok.2 hmain,
        rows_written, String.append_assoc]
      simp

/-- Two successful invocations in a row on a path without a file: the file is the
header row followed by the data rows of both. -/
theorem csv_header_written_once_witness :
    (run_all two_runs empty_world).logs "r.csv"
      = some (csv_header ++ rows_written two_runs empty_world) :=
  (csv_header_written_once "r.csv" two_runs empty_world (by decide)
    ⟨by decide!, by decide!, trivial⟩).trans (by decide!)

/-- When both logs are given the same path: starting without a file, a successful
invocation leaves a file in which the header row occurs nowhere, because opening
the line-delimited log created the file before the existence check. -/
theorem csv_header_missing_when_paths_coincide :
    empty_world.logs "out.log" = none
    ∧ (main (plain_host 0 "") { n := 4, out_jsonl := "out.log", out_csv := "out.log" }
        empty_world).exit = .status 0
    ∧ ((main (plain_host 0 "") { n := 4, out_jsonl := "out.log", out_csv := "out.log" }
        empty_world).world.logs "out.log").map (occurs_in csv_header) = some false := by
  refine ⟨rfl, ?_, ?_⟩ <;> decide!

/-! ### The tabular log in the file system of the host -/

/-- Under the access `main` assumes, the writer of `Fs.main` is the writer of `main`. -/
theorem fs_write_results_direct (host : Host) (args : Args) (results : List Entry) (w : World)
    (trace : List (String × Outcome)) :
    Fs.write_results direct_access host args results w trace
      = write_results host args results w trace := by
  unfold Fs.write_results write_results Fs.file_exists file_exists direct_access
  simp

/-- Under the access `main` assumes, `Fs.main` is `main`. -/
theorem fs_main_direct (host : Host) (args : Args) (w : World) :
    Fs.main direct_access host args w = main host args w := by
  unfold Fs.main main
  simp only [fs_write_results_direct]

/-- A successful invocation reached the writer. -/
theorem fs_main_success (access : Access) (host : Host) (args : Args) (w : World)
    (h : (Fs.main access host args w).exit = .status 0) :
    ∃ (results : List Entry) (st : Progress),
      Fs.main access host args w
        = Fs.write_results access host args results { w with temps := st.temps } st.trace := by
  revert h
  unfold Fs.main parse_args
  by_cases hn : args.n ≤ 0
  · rw [if_pos hn]
    intro h
    exact absurd h (by simp)
  · rw [if_neg hn]
    simp only
    split
    · intro h; exact absurd h (by simp)
    · intro h; exact absurd h (by simp)
    · rename_i results st _
      intro _
      exact ⟨analysis results, st, rfl⟩

/-- The tabular log after the writer succeeded, when the two paths name different
files and the write to the tabular log is stored: the old content, the header row
if and only if `file_exists` was false, the data rows. -/
theorem fs_write_results_csv (access : Access) (host : Host) (args : Args)
    (results : List Entry) (w : World) (trace : List (String × Outcome))
    (hfiles : access.resolve args.out_jsonl ≠ access.resolve args.out_csv)
    (hstored : ∀ text, access.stored (access.resolve args.out_csv) text = text)
    (h : (Fs.write_results access host args results w trace).exit = .status 0) :
    (Fs.write_results access host args results w trace).world.logs (access.resolve args.out_csv)
        = some ((w.logs (access.resolve args.out_csv)).getD ""
            ++ csv_text host results (Fs.file_exists access w.logs args.out_csv))
    ∧ (Fs.write_results access host args results w trace).records = results := by
  revert h
  unfold Fs.write_results
  split
  · intro h; exact absurd h (by simp)
  · simp only
    split
    · intro h; exact absurd h (by simp)
    · intro _
      refine ⟨?_, rfl⟩
      simp only
      rw [write_append_other _ _ hfiles, write_append_self, open_append_self,
        open_append_other _ hfiles, hstored]
      unfold Fs.file_exists
      rw [open_append_other _ hfiles]
      rfl

/-- The tabular log after one successful invocation whose two paths name different
files and whose write to the tabular log is stored. -/
theorem fs_main_csv (access : Access) (host : Host) (args : Args) (w : World)
    (hfiles : access.resolve args.out_jsonl ≠ access.resolve args.out_csv)
    (hstored : ∀ text, access.stored (access.resolve args.out_csv) text = text)
    (h : (Fs.main access host args w).exit = .status 0) :
    (Fs.main access host args w).world.logs (access.resolve args.out_csv)
      = some ((w.logs (access.resolve args.out_csv)).getD ""
          ++ csv_text host (Fs.main access host args w).records
              (Fs.file_exists access w.logs args.out_csv)) := by
  obtain ⟨results, st, heq⟩ := fs_main_success access host args w h
  rw [heq] at h ⊢
  obtain ⟨h1, h2⟩ := fs_write_results_csv access host args results _ st.trace hfiles hstored h
  rw [h1, h2]

theorem fs_csv_appended_by_runs (file : String) :
    ∀ (jobs : List Fs.Job) (w : World) (old : String),
      (∀ job ∈ jobs, job.access.resolve job.args.out_csv = file) →
      (∀ job ∈ jobs, job.access.resolve job.args.out_jsonl ≠ file) →
      (∀ job ∈ jobs, job.access.can_read file = true) →
      (∀ job ∈ jobs, ∀ text, job.access.stored file text = text) →
      Fs.all_succeed jobs w → w.logs file = some old →
      (Fs.run_all jobs w).logs file = some (old ++ Fs.rows_written jobs w) := by
  intro jobs
  induction jobs with
  | nil =>
    intro w old _ _ _ _ _ hold
    simp [Fs.run_all, Fs.rows_written, hold]
  | cons job rest ih =>
    intro w old hcsv hjsonl hread hstored hok hold
    have hc := hcsv job (List.mem_cons_self _ _)
    have hmain := fs_main_csv job.access job.host job.args w
      (by rw [hc]; exact hjsonl job (List.mem_cons_self _ _))
      (by rw [hc]; exact hstored job (List.mem_cons_self _ _)) hok.1
    rw [hc] at hmain
    have hex : Fs.file_exists job.access w.logs job.args.out_csv = true := by
      unfold Fs.file_exists
      rw [hc, hold, hread job (List.mem_cons_self _ _)]
      rfl
    rw [hex, hold] at hmain
    have hmain2 : (Fs.main job.access job.host job.args w).world.logs file
        = some (old ++ csv_rows job.host (Fs.main job.access job.host job.args w).records) := by
      rw [hmain]
      simp [csv_text]
    rw [Fs.run_all,
      ih _ _ (fun j hj => hcsv j (List.mem_cons_of_mem _ hj))
        (fun j hj => hjsonl j (List.mem_cons_of_mem _ hj))
        (fun j hj => hread j (List.mem_cons_of_mem _ hj))
        (fun j hj => hstored j (List.mem_cons_of_mem _ hj)) hok.2 hmain2,
      Fs.rows_written, String.append_assoc]

/-- C9 as amended. For every sequence of successful invocations, nothing else (the
benchmarked commands included) touching the files, in which every invocation
writes the tabular log to the same file `file` and the line-delimited log to
another file (whatever the path texts),
can read `file` when it exists, and has its writes to `file` stored in full: if
the file was absent at the start (and the sequence is not empty) the file is the
header row followed by the data rows of the invocations in order; if the file
existed, the data rows are appended to its content and no header is written. -/
theorem csv_header_once_per_file (file : String) (jobs : List Fs.Job) (w : World)
    (hcsv : ∀ job ∈ jobs, job.access.resolve job.args.out_csv = file)
    (hjsonl : ∀ job ∈ jobs, job.access.resolve job.args.out_jsonl ≠ file)
    (hread : ∀ job ∈ jobs, job.access.can_read file = true)
    (hstored : ∀ job ∈ jobs, ∀ text, job.access.stored file text = text)
    (hok : Fs.all_succeed jobs w) :
    (Fs.run_all jobs w).logs file
      = (match w.logs file with
         | some old => some (old ++ Fs.rows_written jobs w)
         | none =>
           if jobs.isEmpty then none else some (csv_header ++ Fs.rows_written jobs w)) := by
  cases hold : w.logs file with
  | some old => exact fs_csv_appended_by_runs file jobs w old hcsv hjsonl hread hstored hok hold
  | none =>
    cases jobs with
    | nil => simpa [Fs.run_all] using hold
    | cons job rest =>
      have hc := hcsv job (List.mem_cons_self _ _)
      have hmain := fs_main_csv job.access job.host job.args w
        (by rw [hc]; exact hjsonl job (List.mem_cons_self _ _))
        (by rw [hc]; exact hstored job (List.mem_cons_self _ _)) hok.1
      rw [hc] at hmain
      have hex : Fs.file_exists job.access w.logs job.args.out_csv = false := by
        unfold Fs.file_exists
        rw [hc, hold]
        rfl
      rw [hex, hold] at hmain
      have hmain2 : (Fs.main job.access job.host job.args w).world.logs file
          = some (csv_header
              ++ csv_rows job.host (Fs.main job.access job.host job.args w).records) := by
        rw [hmain]
        simp [csv_text]
      rw [Fs.run_all,
        fs_csv_appended_by_runs file rest _ _ (fun j hj => hcsv j (List.mem_cons_of_mem _ hj))
          (fun j hj => hjsonl j (List.mem_cons_of_mem _ hj))
          (fun j hj => hread j (List.mem_cons_of_mem _ hj))
          (fun j hj => hstored j (List.mem_cons_of_mem _ hj)) hok.2 hmain2,
        Fs.rows_written, String.append_assoc]
      simp

/-- Two successful invocations in a row on a file that is absent at the start, the
first naming it `r.csv` and the second `./r.csv`: the file is the header row
followed by the data rows of both. -/
theorem csv_header_once_per_file_witness :
    (Fs.run_all two_spellings empty_world).logs "r.csv"
      = some (csv_header ++ Fs.rows_written two_spellings empty_world) :=
  (csv_header_once_per_file "r.csv" two_spellings empty_world (by decide!) (by decide!)
    (by decide!) (by intro job hjob text; fin_cases hjob <;> rfl)
    ⟨by decide!, by decide!, trivial⟩).trans (by decide!)

/-- C9 as stated fails.  Starting without a file, each of these successful
invocations leaves the tabular log without any header row, the line-delimited log
having created the file before the existence check: one whose two paths are the
same text, and one whose two paths, `./out.log` and `out.log`, are different texts
that name one file.  And on a file that exists but cannot be read (as it is after an
invocation created it under a mask that withholds the read permission), an
invocation writes the header row again: after two invocations the file holds it
twice. -/
theorem csv_header_missing_or_repeated :
    (empty_world.logs "out.log" = none
      ∧ (Fs.main direct_access (plain_host 0 "")
          { n := 4, out_jsonl := "out.log", out_csv := "out.log" } empty_world).exit = .status 0
      ∧ ((Fs.main direct_access (plain_host 0 "")
          { n := 4, out_jsonl := "out.log", out_csv := "out.log" } empty_world).world.logs
            "out.log").map (occurs_in csv_header) = some false)
    ∧ (("./out.log" : String) ≠ "out.log"
      ∧ (Fs.main dot_slash_access (plain_host 0 "")
          { n := 4, out_jsonl := "./out.log", out_csv := "out.log" } empty_world).exit = .status 0
      ∧ ((Fs.main dot_slash_access (plain_host 0 "")
          { n := 4, out_jsonl := "./out.log", out_csv := "out.log" } empty_world).world.logs
            "out.log").map (occurs_in csv_header) = some false)
    ∧ (Fs.all_succeed [stub_job write_only_access 4 "r.jsonl" "r.csv",
          stub_job write_only_access 8 "r.jsonl" "r.csv"] empty_world
      ∧ (Fs.run_all [stub_job write_only_access 4 "r.jsonl" "r.csv",
          stub_job write_only_access 8 "r.jsonl" "r.csv"] empty_world).logs "r.csv"
          = some (csv_header ++ stub_rows 4 ++ csv_header ++ stub_rows 8)) := by
  refine ⟨⟨rfl, ?_, ?_⟩, ⟨?_, ?_, ?_⟩, ⟨⟨?_, ?_, trivial⟩, ?_⟩⟩ <;> decide!

/-- When no write reaches the file (a full disk), a successful invocation leaves the
tabular log it created empty, and the next invocation, whose writes are stored,
appends its data rows to a file without a header row. -/
theorem csv_header_lost_on_full_disk :
    Fs.all_succeed [stub_job full_disk_access 4 "r.jsonl" "r.csv",
        stub_job direct_access 8 "r.jsonl" "r.csv"] empty_world
    ∧ (Fs.run_all [stub_job full_disk_access 4 "r.jsonl" "r.csv",
        stub_job direct_access 8 "r.jsonl" "r.csv"] empty_world).logs "r.csv"
        = some (stub_rows 8) := by
  refine ⟨⟨?_, ?_, trivial⟩, ?_⟩ <;> decide!

/-! ## Theorems: the writer and the end of `main` -/

/-- A trial that exits with status 0 and reports a time within the range of `double`
returns with exit code 0 and that time, whatever the measured time. -/
theorem run_command_reports (host : Host) (k : Nat) (command : String) (value : ℚ)
    (temps : List String) (h : reports_time host k command value) :
    ∃ result, (run_command (host.spawn k) command temps).1 = .returned result
      ∧ result.returncode = 0 ∧ result.time_ms = value := by
  obtain ⟨o, e, child, m, hs, hx, hm, hr, hv⟩ := h
  have hparse := (parse_time_ms_in_range child.stdout_text).1 m hm hr
  have hnonneg := decimal_value_nonneg m
  unfold run_command
  simp only [hs, hparse, hx]
  refine ⟨_, rfl, by simp, ?_⟩
  simp only [ge_iff_le, hnonneg, if_true]
  exact hv

/-- The inner loop over trials that all report: it completes, with the reported
values appended to the series of times. -/
theorem run_trials_reports (host : Host) (args : Args) (templ : String) (values : Nat → ℚ) :
    ∀ (k : Nat) (ts ms : List ℚ) (st : Progress),
      (∀ j command, st.calls ≤ j → j < st.calls + k → reports_time host j command (values j)) →
      ∃ ms1 st1, run_trials host args templ k ts ms st
          = .done (ts ++ (List.range k).map (fun i => values (st.calls + i)), ms1) st1
        ∧ st1.calls = st.calls + k := by
  intro k
  induction k with
  | zero =>
    intro ts ms st _
    exact ⟨ms, st, by simp [run_trials], rfl⟩
  | succ k ih =>
    intro ts ms st hgood
    obtain ⟨result, hres, hrc, htime⟩ := run_command_reports host st.calls
      (format_cmd templ args) (values st.calls) st.temps
      (hgood st.calls _ (le_refl _) (by omega))
    simp only [run_trials]
    rw [hres]
    simp only [hrc, ne_eq, not_true_eq_false, if_false]
    obtain ⟨ms1, st1, heq, hcalls⟩ := ih (ts ++ [result.time_ms])
      (if result.memory_kb ≥ 0 then ms ++ [(result.memory_kb : ℚ)] else ms)
      { calls := st.calls + 1, temps := (run_command (host.spawn st.calls)
          (format_cmd templ args) st.temps).2,
        trace := st.trace ++ [(format_cmd templ args, Outcome.returned result)] }
      (fun j command h1 h2 => hgood j command (by simp only at h1; omega)
        (by simp only at h2; omega))
    refine ⟨ms1, st1, ?_, by rw [hcalls]; simp only; omega⟩
    rw [heq, htime, List.range_succ_eq_map]
    simp [List.map_map, Function.comp_def, Nat.add_assoc, Nat.add_comm 1]

theorem compare_with_time_ms (b e : Entry) : (compare_with b e).time_ms = e.time_ms := by
  unfold compare_with
  split <;> rfl

/-- The analysis changes neither the method nor the mean time of a record. -/
theorem analysis_times (rs : List Entry) :
    (analysis rs).map (fun e => (e.method, e.time_ms))
      = rs.map (fun e => (e.method, e.time_ms)) := by
  rw [analysis_eq]
  cases rs.find? (fun entry => entry.method == "scalapack") with
  | none => rfl
  | some b =>
    simp only [List.map_map]
    apply List.map_congr_left
    intro e _
    simp only [Function.comp_apply, compare_with_method, compare_with_time_ms]

/-- The run loop over trials that all report: it completes with one record per method,
whose mean time is the mean of the values that method's trials reported. -/
theorem run_methods_reports (host : Host) (args : Args) (values : Nat → ℚ) (w : World)
    (hhost : self_reports host values (3 * args.runs.toNat)) :
    ∃ results st,
      run_methods host args (methods args) [] { calls := 0, temps := w.temps, trace := [] }
        = .done results st
      ∧ results.map (fun e => (e.method, e.time_ms))
        = [("hipsolver", average ((List.range args.runs.toNat).map (fun i => values i))),
           ("rocsolver",
             average ((List.range args.runs.toNat).map (fun i => values (args.runs.toNat + i)))),
           ("scalapack",
             average ((List.range args.runs.toNat).map
               (fun i => values (args.runs.toNat + args.runs.toNat + i))))] := by
  obtain ⟨m1, st1, e1, c1⟩ := run_trials_reports host args args.hip_cmd values args.runs.toNat
    [] [] { calls := 0, temps := w.temps, trace := [] }
    (fun j command _ h2 => hhost j command (by simp only at h2; omega))
  obtain ⟨m2, st2, e2, c2⟩ := run_trials_reports host args args.roc_cmd values args.runs.toNat
    [] [] st1 (fun j command _ h2 => hhost j command (by simp only [c1] at h2; omega))
  obtain ⟨m3, st3, e3, c3⟩ := run_trials_reports host args args.scalapack_cmd values
    args.runs.toNat [] [] st2
    (fun j command _ h2 => hhost j command (by simp only [c2, c1] at h2; omega))
  simp only [methods, run_methods, e1, e2, e3]
  refine ⟨_, _, rfl, ?_⟩
  simp [c1, c2]

/-- For every valid configuration and every host whose trials all exit with status 0
and report a time within the range of `double`: `main` holds three records,
`hipsolver`, `rocsolver`, `scalapack`, and the mean time of each is the mean of the
values its own trials reported; the measured times do not enter. -/
theorem self_reported_means (host : Host) (args : Args) (w : World) (values : Nat → ℚ)
    (hn : 0 < args.n) (hhost : self_reports host values (3 * args.runs.toNat)) :
    (main host args w).records.map (fun r => (r.method, r.time_ms))
      = [("hipsolver", average ((List.range args.runs.toNat).map (fun i => values i))),
         ("rocsolver",
           average ((List.range args.runs.toNat).map (fun i => values (args.runs.toNat + i)))),
         ("scalapack",
           average ((List.range args.runs.toNat).map
             (fun i => values (args.runs.toNat + args.runs.toNat + i))))] := by
  obtain ⟨results, st, hrun, hres⟩ := run_methods_reports host args values w hhost
  unfold main parse_args
  rw [if_neg (not_le.mpr hn)]
  simp only
  rw [hrun]
  simp only
  rw [write_results_records, analysis_times, hres]

/-- Three stubs that each print `{"time_ms": 5.0}` and exit 0, with `runs = 2`: three
records, each with `time_ms = 5`, although the measured time of every trial is 12 ms. -/
theorem self_reported_means_at_five :
    (main (plain_host 0 five_ms_text) { n := 4, runs := 2 } empty_world).records.map
        (fun r => (r.method, r.time_ms))
      = [("hipsolver", 5), ("rocsolver", 5), ("scalapack", 5)] :=
  (self_reported_means (plain_host 0 five_ms_text) { n := 4, runs := 2 } empty_world
    (fun _ => 5) (by decide)
    (fun _ _ _ =>
      ⟨"/tmp/chol_stdoutAAAAAA", "/tmp/chol_stderrAAAAAA",
       { exited := some 0, maxrss := 1000, elapsed_ms := 12, stdout_text := five_ms_text },
       "5.0".data, rfl, rfl, by decide!, by decide!,
       show decimal_value "5.0".data = (5 : ℚ) by decide!⟩)).trans (by decide!)

/-- C11 (the code fails the claim). Three stubs that each exit 0 and print a `time_ms`
field with the well-formed integer `10^309`, with `runs = 2`: the regular expression
finds the field, `std::stod` raises its range error on it in the first trial, and the
exception leaves `main`, which holds no record. -/
theorem huge_self_reported_time_aborts_main :
    regex_search huge_time_text.data = some ('1' :: List.replicate 309 '0')
    ∧ (((plain_host 0 huge_time_text).spawn 0 "").wait.map (fun child => child.exited))
        = some (some 0)
    ∧ (main (plain_host 0 huge_time_text) { n := 4, runs := 2 } empty_world).exit
        = .uncaught "stod"
    ∧ (main (plain_host 0 huge_time_text) { n := 4, runs := 2 } empty_world).records = []
    ∧ (main (plain_host 0 huge_time_text) { n := 4, runs := 2 } empty_world).trace
        = [("./build/hip_cholesky --n 4 --iters 3", .raised "stod")] := by
  refine ⟨?_, ?_, ?_, ?_, ?_⟩ <;> decide!

end RunBench
